import Mathlib

/-!
Verification of the gchemol `lattice` crate (3D periodic lattice with
minimum-image-convention geometry).

The Rust code is shallowly embedded: `f64` values are modelled as real
numbers, `Vector3f` as an explicit record of three reals, `Matrix3f` as a
record of its three column vectors (matching `Matrix3f::from_columns`).
Rust panics (`assert!`, `.expect`) are modelled as the `Except.error` case
of an explicit `RustPanic` type: an `error` result denotes a panic that
aborts the caller, not a recoverable `Result` value (the Rust signatures
return plain `Self`/`()`, there is no `Result` in the source API).
`f64::round` (ties away from zero) is modelled by `roundAZ`, and the
saturating `as usize` cast of a ceiling is modelled with `Int.toNat`.
-/

noncomputable section

open Classical

namespace gchemol

/-- A 3-vector of reals, modelling `vecfx::Vector3f` (`f64` components). -/
@[ext]
structure Vec3 where
  x : ℝ
  y : ℝ
  z : ℝ

namespace Vec3

instance : Add Vec3 := ⟨fun u v => ⟨u.x + v.x, u.y + v.y, u.z + v.z⟩⟩
instance : Sub Vec3 := ⟨fun u v => ⟨u.x - v.x, u.y - v.y, u.z - v.z⟩⟩
instance : Neg Vec3 := ⟨fun v => ⟨-v.x, -v.y, -v.z⟩⟩
instance : Zero Vec3 := ⟨⟨0, 0, 0⟩⟩

@[simp] theorem add_x (u v : Vec3) : (u + v).x = u.x + v.x := rfl

@[simp] theorem add_y (u v : Vec3) : (u + v).y = u.y + v.y := rfl

@[simp] theorem add_z (u v : Vec3) : (u + v).z = u.z + v.z := rfl

@[simp] theorem sub_x (u v : Vec3) : (u - v).x = u.x - v.x := rfl

@[simp] theorem sub_y (u v : Vec3) : (u - v).y = u.y - v.y := rfl

@[simp] theorem sub_z (u v : Vec3) : (u - v).z = u.z - v.z := rfl

@[simp] theorem neg_x (v : Vec3) : (-v).x = -v.x := rfl

@[simp] theorem neg_y (v : Vec3) : (-v).y = -v.y := rfl

@[simp] theorem neg_z (v : Vec3) : (-v).z = -v.z := rfl

@[simp] theorem zero_x : (0 : Vec3).x = 0 := rfl

@[simp] theorem zero_y : (0 : Vec3).y = 0 := rfl

@[simp] theorem zero_z : (0 : Vec3).z = 0 := rfl

/-- Euclidean dot product, as in `nalgebra`'s `dot`. -/
def dot (u v : Vec3) : ℝ := u.x * v.x + u.y * v.y + u.z * v.z

/-- Cross product, as in `nalgebra`'s `cross`. -/
def cross (u v : Vec3) : Vec3 :=
  ⟨u.y * v.z - u.z * v.y, u.z * v.x - u.x * v.z, u.x * v.y - u.y * v.x⟩

/-- Squared Euclidean norm. -/
def normSq (v : Vec3) : ℝ := v.x * v.x + v.y * v.y + v.z * v.z

/-- Euclidean norm, modelling `Vector3f::norm`. -/
def norm (v : Vec3) : ℝ := Real.sqrt (normSq v)

theorem normSq_nonneg (v : Vec3) : 0 ≤ normSq v := by
  have hx := mul_self_nonneg v.x
  have hy := mul_self_nonneg v.y
  have hz := mul_self_nonneg v.z
  unfold normSq; linarith

theorem norm_nonneg (v : Vec3) : 0 ≤ norm v := Real.sqrt_nonneg _

@[simp] theorem normSq_neg (v : Vec3) : normSq (-v) = normSq v := by
  simp only [normSq, neg_x, neg_y, neg_z]; ring

@[simp] theorem norm_neg (v : Vec3) : norm (-v) = norm v := by
  unfold norm; rw [normSq_neg]

@[simp] theorem norm_zero : norm (0 : Vec3) = 0 := by
  simp [norm, normSq]

theorem norm_le_norm_iff {u v : Vec3} : norm u ≤ norm v ↔ normSq u ≤ normSq v := by
  unfold norm
  rw [Real.sqrt_le_sqrt_iff (normSq_nonneg v)]

theorem norm_lt_norm_iff {u v : Vec3} : norm u < norm v ↔ normSq u < normSq v := by
  unfold norm
  rw [Real.sqrt_lt_sqrt_iff (normSq_nonneg u)]

/-- Lagrange's identity for 3-vectors. -/
theorem lagrange (u v : Vec3) :
    normSq u * normSq v = dot u v ^ 2 + normSq (cross u v) := by
  simp only [normSq, dot, cross]
  ring

/-- Cauchy-Schwarz via Lagrange's identity, squared form. -/
theorem dot_sq_le (u v : Vec3) : dot u v ^ 2 ≤ normSq u * normSq v := by
  have h := lagrange u v
  have h2 := normSq_nonneg (cross u v)
  linarith

theorem norm_mul_norm (u v : Vec3) :
    norm u * norm v = Real.sqrt (normSq u * normSq v) := by
  unfold norm
  rw [Real.sqrt_mul (normSq_nonneg u)]

/-- Cauchy-Schwarz with absolute value. -/
theorem abs_dot_le (u v : Vec3) : |dot u v| ≤ norm u * norm v := by
  rw [norm_mul_norm]
  have h1 : |dot u v| = Real.sqrt (dot u v ^ 2) := by
    rw [Real.sqrt_sq_eq_abs]
  rw [h1]
  exact Real.sqrt_le_sqrt (dot_sq_le u v)

/-- The cross product's norm is at most the product of the norms. -/
theorem norm_cross_le (u v : Vec3) : norm (cross u v) ≤ norm u * norm v := by
  rw [norm_mul_norm]
  unfold norm
  apply Real.sqrt_le_sqrt
  have h := lagrange u v
  have h2 := sq_nonneg (dot u v)
  linarith

theorem dot_self_eq (v : Vec3) : dot v v = normSq v := by
  simp [dot, normSq]

/-- Triangle inequality. -/
theorem norm_add_le (u v : Vec3) : norm (u + v) ≤ norm u + norm v := by
  have hcs : dot u v ≤ norm u * norm v := le_trans (le_abs_self _) (abs_dot_le u v)
  have hsq : normSq (u + v) ≤ (norm u + norm v) ^ 2 := by
    have hu : norm u ^ 2 = normSq u := by
      unfold norm; rw [Real.sq_sqrt (normSq_nonneg u)]
    have hv : norm v ^ 2 = normSq v := by
      unfold norm; rw [Real.sq_sqrt (normSq_nonneg v)]
    have hexp : normSq (u + v) = normSq u + 2 * dot u v + normSq v := by
      simp [normSq, dot]; ring
    nlinarith
  have h0 : 0 ≤ norm u + norm v := by
    have := norm_nonneg u; have := norm_nonneg v; linarith
  calc norm (u + v) = Real.sqrt (normSq (u + v)) := rfl
    _ ≤ Real.sqrt ((norm u + norm v) ^ 2) := Real.sqrt_le_sqrt hsq
    _ = norm u + norm v := Real.sqrt_sq h0

/-- Reverse triangle inequality, in the form used for the MIC certificate. -/
theorem norm_sub_le_norm_add (u v : Vec3) : norm u - norm v ≤ norm (u + v) := by
  have h : norm (u + v + -v) ≤ norm (u + v) + norm (-v) := norm_add_le (u + v) (-v)
  have he : u + v + -v = u := by ext <;> simp
  rw [he, norm_neg] at h
  linarith

end Vec3

/-- A 3x3 matrix stored as its three columns, matching
`Matrix3f::from_columns(&[va, vb, vc])` in the source. -/
@[ext]
structure Mat3 where
  ca : Vec3
  cb : Vec3
  cc : Vec3

namespace Mat3

/-- Matrix-vector product: the linear combination of the columns. -/
def mulVec (M : Mat3) (v : Vec3) : Vec3 :=
  ⟨M.ca.x * v.x + M.cb.x * v.y + M.cc.x * v.z,
   M.ca.y * v.x + M.cb.y * v.y + M.cc.y * v.z,
   M.ca.z * v.x + M.cb.z * v.y + M.cc.z * v.z⟩

/-- Matrix-matrix product (columnwise). -/
def mulMat (A B : Mat3) : Mat3 := ⟨mulVec A B.ca, mulVec A B.cb, mulVec A B.cc⟩

/-- Scalar multiple of a matrix (`self.matrix *= v`). -/
def smulMat (t : ℝ) (M : Mat3) : Mat3 :=
  ⟨⟨t * M.ca.x, t * M.ca.y, t * M.ca.z⟩,
   ⟨t * M.cb.x, t * M.cb.y, t * M.cb.z⟩,
   ⟨t * M.cc.x, t * M.cc.y, t * M.cc.z⟩⟩

/-- The identity matrix (`Matrix3f::identity()`). -/
def one3 : Mat3 := ⟨⟨1, 0, 0⟩, ⟨0, 1, 0⟩, ⟨0, 0, 1⟩⟩

/-- Determinant as the scalar triple product of the columns; this is exactly
what `get_cell_volume` computes (`va.dot(&vb.cross(&vc))`). -/
def det (M : Mat3) : ℝ := Vec3.dot M.ca (Vec3.cross M.cb M.cc)

/-- The explicit inverse of a 3x3 matrix (adjugate over determinant); the
rows of the inverse are the cross products of pairs of columns divided by
the determinant. -/
def inv3 (M : Mat3) : Mat3 :=
  ⟨⟨(Vec3.cross M.cb M.cc).x / det M, (Vec3.cross M.cc M.ca).x / det M,
    (Vec3.cross M.ca M.cb).x / det M⟩,
   ⟨(Vec3.cross M.cb M.cc).y / det M, (Vec3.cross M.cc M.ca).y / det M,
    (Vec3.cross M.ca M.cb).y / det M⟩,
   ⟨(Vec3.cross M.cb M.cc).z / det M, (Vec3.cross M.cc M.ca).z / det M,
    (Vec3.cross M.ca M.cb).z / det M⟩⟩

/-- Model of `nalgebra`'s `Matrix3::try_inverse`: defined exactly when the
determinant is nonzero. -/
def tryInverse (M : Mat3) : Option Mat3 :=
  if det M = 0 then none else some (inv3 M)

/-- `Matrix3f::from_diagonal(&matrix.diagonal())`. -/
def diagOnly (M : Mat3) : Mat3 :=
  ⟨⟨M.ca.x, 0, 0⟩, ⟨0, M.cb.y, 0⟩, ⟨0, 0, M.cc.z⟩⟩

theorem inv3_mul (M : Mat3) (h : det M ≠ 0) : mulMat (inv3 M) M = one3 := by
  ext <;>
    (simp only [mulMat, mulVec, inv3, one3, Vec3.cross]
     field_simp
     try simp only [det, Vec3.dot, Vec3.cross]
     try ring)

theorem mul_inv3 (M : Mat3) (h : det M ≠ 0) : mulMat M (inv3 M) = one3 := by
  ext <;>
    (simp only [mulMat, mulVec, inv3, one3, Vec3.cross]
     field_simp
     try simp only [det, Vec3.dot, Vec3.cross]
     try ring)

end Mat3

/-- Model of Rust `f64::round`: round to nearest, ties away from zero. -/
def roundAZ (x : ℝ) : ℤ := if 0 ≤ x then ⌊x + 1 / 2⌋ else -⌊-x + 1 / 2⌋

/-- A Rust panic (`assert!` failure or `.expect` on `None`).  An
`Except.error` carrying this type models an aborting panic propagating to
the caller; the Rust API has no `Result`-typed error channel. -/
inductive RustPanic where
  /-- the `assert!(v.is_sign_positive(), "invalid scale factor")` panic -/
  | invalidScaleFactor : RustPanic
  /-- the `.expect("bad matrix")` panic in `get_inv_matrix` -/
  | badMatrix : RustPanic
deriving DecidableEq

/-- `utils::get_inv_matrix`: `matrix.try_inverse().expect("bad matrix")`. -/
def get_inv_matrix (M : Mat3) : Except RustPanic Mat3 :=
  match Mat3.tryInverse M with
  | some i => Except.ok i
  | none => Except.error RustPanic.badMatrix

/-- The `Lattice` struct: translation matrix, origin, and the stored
inverse matrix. -/
structure Lattice where
  matrix : Mat3
  origin : Vec3
  inv_matrix : Mat3

/-- Casting an integer image triple to a real vector
(`[i as f64, j as f64, k as f64]`). -/
def castTriple (n : ℤ × ℤ × ℤ) : Vec3 := ⟨(n.1 : ℝ), (n.2.1 : ℝ), (n.2.2 : ℝ)⟩

/-- `std::f64::MAX`, the initial best distance in `apply_mic_brute_force`. -/
def f64MAX : ℝ := (2 - ((2 : ℝ) ^ (52 : ℕ))⁻¹) * 2 ^ (1023 : ℕ)

namespace Lattice

/-- `Lattice::from_matrix`: store the matrix and the freshly computed
inverse; the origin comes from `Default` (zeros).  A singular matrix makes
`get_inv_matrix` panic. -/
def from_matrix (m : Mat3) : Except RustPanic Lattice :=
  (get_inv_matrix m).map fun i => ⟨m, 0, i⟩

/-- `Lattice::new`: build the matrix from the three column vectors. -/
def new (va vb vc : Vec3) : Except RustPanic Lattice :=
  from_matrix ⟨va, vb, vc⟩

/-- `Lattice::from_params` (lengths in angstrom, angles in degrees). -/
def from_params (a b c alpha beta gamma : ℝ) : Except RustPanic Lattice :=
  let alphar := alpha * (Real.pi / 180)
  let betar := beta * (Real.pi / 180)
  let gammar := gamma * (Real.pi / 180)
  let acos := Real.cos alphar
  let bcos := Real.cos betar
  let gcos := Real.cos gammar
  let gsin := Real.sin gammar
  let v := Real.sqrt (1 - acos ^ 2 - bcos ^ 2 - gcos ^ 2 + 2 * acos * bcos * gcos)
  new ⟨a, 0, 0⟩ ⟨b * gcos, b * gsin, 0⟩
    ⟨c * bcos, c * (acos - bcos * gcos) / gsin, c * v / gsin⟩

/-- `volume`, via `get_cell_volume` (scalar triple product, no absolute
value: a left-handed basis has negative volume). -/
def volume (L : Lattice) : ℝ := Mat3.det L.matrix

/-- `lengths`: the norms of the three column vectors. -/
def lengths (L : Lattice) : ℝ × ℝ × ℝ :=
  (Vec3.norm L.matrix.ca, Vec3.norm L.matrix.cb, Vec3.norm L.matrix.cc)

/-- `widths`: perpendicular widths computed as `volume / (vbn * vcn)` etc. -/
def widths (L : Lattice) : ℝ × ℝ × ℝ :=
  (L.volume / ((L.lengths.2.1) * (L.lengths.2.2)),
   L.volume / ((L.lengths.2.2) * (L.lengths.1)),
   L.volume / ((L.lengths.1) * (L.lengths.2.1)))

/-- `widths().min()`: the least of the three perpendicular widths. -/
def widthsMin (L : Lattice) : ℝ := min (min L.widths.1 L.widths.2.1) L.widths.2.2

/-- `set_origin`: replaces only the origin. -/
def set_origin (L : Lattice) (loc : Vec3) : Lattice := { L with origin := loc }

/-- `scale_by`: assert the factor's sign bit is positive (note `+0.0`
passes this check in Rust, so the model guards with `0 ≤ v`), scale the
whole matrix, then recompute the stored inverse. -/
def scale_by (L : Lattice) (v : ℝ) : Except RustPanic Lattice :=
  if 0 ≤ v then
    let m := Mat3.smulMat v L.matrix
    (get_inv_matrix m).map fun i => { L with matrix := m, inv_matrix := i }
  else Except.error RustPanic.invalidScaleFactor

/-- Scaling a single column of the matrix by `v`. -/
def scaleCol (M : Mat3) (i : Fin 3) (v : ℝ) : Mat3 :=
  match i with
  | 0 => ⟨⟨v * M.ca.x, v * M.ca.y, v * M.ca.z⟩, M.cb, M.cc⟩
  | 1 => ⟨M.ca, ⟨v * M.cb.x, v * M.cb.y, v * M.cb.z⟩, M.cc⟩
  | 2 => ⟨M.ca, M.cb, ⟨v * M.cc.x, v * M.cc.y, v * M.cc.z⟩⟩

/-- `scale_by_abc`: assert the sign bit, scale column `i`, recompute the
stored inverse. -/
def scale_by_abc (L : Lattice) (v : ℝ) (i : Fin 3) : Except RustPanic Lattice :=
  if 0 ≤ v then
    let m := scaleCol L.matrix i v
    (get_inv_matrix m).map fun inv => { L with matrix := m, inv_matrix := inv }
  else Except.error RustPanic.invalidScaleFactor

/-- `scale_by_a`. -/
def scale_by_a (L : Lattice) (v : ℝ) : Except RustPanic Lattice := L.scale_by_abc v 0

/-- `scale_by_b`. -/
def scale_by_b (L : Lattice) (v : ℝ) : Except RustPanic Lattice := L.scale_by_abc v 1

/-- `scale_by_c`. -/
def scale_by_c (L : Lattice) (v : ℝ) : Except RustPanic Lattice := L.scale_by_abc v 2

/-- `to_frac`: `inv_matrix * (p - origin)`, using the stored inverse. -/
def to_frac (L : Lattice) (p : Vec3) : Vec3 := Mat3.mulVec L.inv_matrix (p - L.origin)

/-- `to_cart`: `matrix * p + origin`. -/
def to_cart (L : Lattice) (p : Vec3) : Vec3 := Mat3.mulVec L.matrix p + L.origin

/-- `is_orthorhombic`: the matrix equals the matrix built from its own
diagonal. -/
def is_orthorhombic (L : Lattice) : Prop := Mat3.diagOnly L.matrix = L.matrix

/-- `wrap_frac`: componentwise `f - f.floor()`. -/
def wrap_frac (L : Lattice) (f : Vec3) : Vec3 :=
  ⟨f.x - (⌊f.x⌋ : ℝ), f.y - (⌊f.y⌋ : ℝ), f.z - (⌊f.z⌋ : ℝ)⟩

/-- `wrap`: to fractional, wrap, back to Cartesian. -/
def wrap (L : Lattice) (p : Vec3) : Vec3 := L.to_cart (L.wrap_frac (L.to_frac p))

/-- `apply_mic_tuckerman`: per-axis image shift `-round(f)` on the
fractional coordinates, then back to Cartesian. -/
def apply_mic_tuckerman (L : Lattice) (p : Vec3) : Vec3 :=
  let f := L.to_frac p
  L.to_cart ⟨f.x - (roundAZ f.x : ℝ), f.y - (roundAZ f.y : ℝ), f.z - (roundAZ f.z : ℝ)⟩

/-- `n_min_images`: per-axis `(radius / width).ceil() as usize`; the Rust
float-to-int cast saturates below at zero, modelled by `Int.toNat`. -/
def n_min_images (L : Lattice) (radius : ℝ) : ℕ × ℕ × ℕ :=
  ((⌈radius / L.widths.1⌉).toNat, (⌈radius / L.widths.2.1⌉).toNat,
   (⌈radius / L.widths.2.2⌉).toNat)

end Lattice

/-- The list `-n, ..., n` of integers, the iteration order of
`for i in (-na)..(na + 1)`. -/
def rangeSym (n : ℕ) : List ℤ := (List.range (2 * n + 1)).map fun (k : ℕ) => (k : ℤ) - (n : ℤ)

/-- Lexicographic (a-major) enumeration of the integer box
`[-na..na] x [-nb..nb] x [-nc..nc]`, as produced by the nested loops of
`relevant_images` (and by `iproduct!`). -/
def lexBox (na nb nc : ℕ) : List (ℤ × ℤ × ℤ) :=
  (rangeSym na).flatMap fun i =>
    (rangeSym nb).flatMap fun j => (rangeSym nc).map fun k => (i, j, k)

namespace Lattice

/-- `relevant_images`: the full integer box for the cutoff radius. -/
def relevant_images (L : Lattice) (radius : ℝ) : List (ℤ × ℤ × ℤ) :=
  let ns := L.n_min_images radius
  lexBox ns.1 ns.2.1 ns.2.2

/-- One step of the brute-force loop: translate the Tuckerman vector `p`
by the Cartesian image `to_cart(image)` and keep the strictly closer
candidate. -/
def micStep (L : Lattice) (p : Vec3) (acc : ℝ × Vec3 × Vec3) (n : ℤ × ℤ × ℤ) :
    ℝ × Vec3 × Vec3 :=
  let v := p + L.to_cart (castTriple n)
  let d := Vec3.norm v
  if d < acc.1 then (d, v, castTriple n) else acc

/-- `apply_mic_brute_force`: pick the Tuckerman vector's norm as cutoff,
enumerate the relevant images, and fold keeping the first strict
improvement over `f64::MAX`. -/
def apply_mic_brute_force (L : Lattice) (p0 : Vec3) : Vec3 :=
  let p := L.apply_mic_tuckerman p0
  let cutoff := Vec3.norm p
  let images := L.relevant_images cutoff
  (images.foldl (L.micStep p) (f64MAX, 0, 0)).2.1

/-- `apply_mic`: Tuckerman fast path, accepted outright for an
orthorhombic cell or when its norm is under half the minimal width;
otherwise brute force. -/
def apply_mic (L : Lattice) (p : Vec3) : Vec3 :=
  let v_naive := L.apply_mic_tuckerman p
  if L.is_orthorhombic then v_naive
  else
    let r_max := 0.5 * L.widthsMin
    if Vec3.norm v_naive < r_max then v_naive else L.apply_mic_brute_force p

/-- `distance`: norm of the MIC vector of `pj - pi`. -/
def distance (L : Lattice) (pi pj : Vec3) : ℝ := Vec3.norm (L.apply_mic (pj - pi))

/-- `supercell::replicate`: image-major, point-minor enumeration; each
output point is the input point translated by `to_cart(image)`. -/
def replicate (L : Lattice) (points : List Vec3) (ra rb rc : List ℤ) : List Vec3 :=
  (ra.flatMap fun i => rb.flatMap fun j => rc.map fun k => (i, j, k)).flatMap
    fun n => points.map fun p => L.to_cart (castTriple n) + p

/-- A vector is congruent to `d` modulo the lattice when it differs from
`d` by an integer combination of the lattice vectors. -/
def congruent (L : Lattice) (v d : Vec3) : Prop :=
  ∃ n : ℤ × ℤ × ℤ, v = d + Mat3.mulVec L.matrix (castTriple n)

end Lattice

/-! ### Basic algebraic lemmas about the embedding -/

theorem Mat3.mulVec_mulVec (A B : Mat3) (v : Vec3) :
    Mat3.mulVec A (Mat3.mulVec B v) = Mat3.mulVec (Mat3.mulMat A B) v := by
  ext <;> simp [Mat3.mulVec, Mat3.mulMat] <;> ring

theorem Mat3.mulVec_one (v : Vec3) : Mat3.mulVec Mat3.one3 v = v := by
  ext <;> simp [Mat3.mulVec, Mat3.one3]

theorem Mat3.mulVec_neg (M : Mat3) (v : Vec3) :
    Mat3.mulVec M (-v) = -(Mat3.mulVec M v) := by
  ext <;> simp [Mat3.mulVec] <;> ring

theorem Mat3.mulVec_zero (M : Mat3) : Mat3.mulVec M 0 = 0 := by
  ext <;> simp [Mat3.mulVec]

theorem Mat3.mulVec_add (M : Mat3) (u v : Vec3) :
    Mat3.mulVec M (u + v) = Mat3.mulVec M u + Mat3.mulVec M v := by
  ext <;> simp [Mat3.mulVec] <;> ring

/-- `get_inv_matrix` succeeds exactly on nonsingular matrices, returning
the true inverse. -/
theorem get_inv_matrix_eq_ok {M : Mat3} (h : Mat3.det M ≠ 0) :
    get_inv_matrix M = Except.ok (Mat3.inv3 M) := by
  unfold get_inv_matrix Mat3.tryInverse
  simp [h]

theorem get_inv_matrix_eq_error {M : Mat3} (h : Mat3.det M = 0) :
    get_inv_matrix M = Except.error RustPanic.badMatrix := by
  unfold get_inv_matrix Mat3.tryInverse
  simp [h]

theorem from_matrix_ok_iff {m : Mat3} {L : Lattice} :
    Lattice.from_matrix m = Except.ok L ↔
      Mat3.det m ≠ 0 ∧ L = ⟨m, 0, Mat3.inv3 m⟩ := by
  unfold Lattice.from_matrix
  by_cases hd : Mat3.det m = 0
  · rw [get_inv_matrix_eq_error hd]
    simp [Except.map, hd]
  · rw [get_inv_matrix_eq_ok hd]
    simp [Except.map, hd, eq_comm]

theorem from_matrix_error_iff {m : Mat3} :
    Lattice.from_matrix m = Except.error RustPanic.badMatrix ↔ Mat3.det m = 0 := by
  unfold Lattice.from_matrix
  by_cases hd : Mat3.det m = 0
  · rw [get_inv_matrix_eq_error hd]
    simp [Except.map, hd]
  · rw [get_inv_matrix_eq_ok hd]
    simp [Except.map, hd]

/-! ### Rounding lemmas -/

theorem roundAZ_nonneg_eq {x : ℝ} (h : 0 ≤ x) : roundAZ x = ⌊x + 1 / 2⌋ := by
  unfold roundAZ; rw [if_pos h]

theorem abs_sub_roundAZ_le (x : ℝ) : |x - (roundAZ x : ℝ)| ≤ 1 / 2 := by
  have key : ∀ y : ℝ, 0 ≤ y → |y - (⌊y + 1 / 2⌋ : ℝ)| ≤ 1 / 2 := by
    intro y _
    have h1 : (⌊y + 1 / 2⌋ : ℝ) ≤ y + 1 / 2 := Int.floor_le _
    have h2 : y + 1 / 2 < (⌊y + 1 / 2⌋ : ℝ) + 1 := Int.lt_floor_add_one _
    rw [abs_le]; constructor <;> linarith
  unfold roundAZ
  split_ifs with h
  · exact key x h
  · push_neg at h
    have h0 : 0 ≤ -x := by linarith
    have := key (-x) h0
    have heq : |x - ((-⌊-x + 1 / 2⌋ : ℤ) : ℝ)| = |(-x) - (⌊-x + 1 / 2⌋ : ℝ)| := by
      push_cast
      rw [← abs_neg]
      ring_nf
    rw [heq]
    exact this

theorem roundAZ_nearest (x : ℝ) (k : ℤ) :
    |x - (roundAZ x : ℝ)| ≤ |x - (k : ℝ)| := by
  by_cases hk : k = roundAZ x
  · rw [hk]
  · have h1 : (1 : ℝ) ≤ |(roundAZ x : ℝ) - (k : ℝ)| := by
      have : (1 : ℤ) ≤ |roundAZ x - k| := Int.one_le_abs (sub_ne_zero.mpr (Ne.symm hk))
      calc (1 : ℝ) = ((1 : ℤ) : ℝ) := by norm_num
        _ ≤ (|roundAZ x - k| : ℤ) := by exact_mod_cast this
        _ = |(roundAZ x : ℝ) - (k : ℝ)| := by push_cast; rfl
    have h2 := abs_sub_roundAZ_le x
    have h3 : |(roundAZ x : ℝ) - (k : ℝ)| ≤ |x - (roundAZ x : ℝ)| + |x - (k : ℝ)| := by
      have := abs_sub_abs_le_abs_sub ((roundAZ x : ℝ) - x) ((k : ℝ) - x)
      calc |(roundAZ x : ℝ) - (k : ℝ)| = |((roundAZ x : ℝ) - x) - ((k : ℝ) - x)| := by
            ring_nf
        _ ≤ |(roundAZ x : ℝ) - x| + |(k : ℝ) - x| := abs_sub _ _
        _ = |x - (roundAZ x : ℝ)| + |x - (k : ℝ)| := by rw [abs_sub_comm ((roundAZ x : ℝ)) x, abs_sub_comm ((k : ℝ)) x]
    linarith

theorem roundAZ_neg (x : ℝ) : roundAZ (-x) = -roundAZ x := by
  rcases lt_trichotomy x 0 with h | h | h
  · have h1 : 0 ≤ -x := by linarith
    have h2 : ¬(0 ≤ x) := by linarith
    unfold roundAZ
    rw [if_pos h1, if_neg h2]
    simp
  · subst h
    unfold roundAZ
    norm_num
  · have h1 : ¬(0 ≤ -x) := by linarith
    have h2 : 0 ≤ x := by linarith
    unfold roundAZ
    rw [if_neg h1, if_pos h2]
    simp


/-! ### Concrete lattices used by witnesses and counterexamples -/

/-- The identity lattice (matrix and stored inverse both the identity),
i.e. the value of `Lattice::default()`. -/
def idLat : Lattice := ⟨Mat3.one3, 0, Mat3.one3⟩

/-! ### C7: fractional/Cartesian round trip -/

/-- C7: for every lattice whose stored inverse is a right inverse of the
basis (the invariant established by every constructor) and every point
`p`, `to_cart (to_frac p) = p`.  In the real-number model the round trip
is exact, which in particular implies the claimed 1e-6 relative
tolerance. -/
theorem c7_roundtrip (L : Lattice) (p : Vec3)
    (hinv : Mat3.mulMat L.matrix L.inv_matrix = Mat3.one3) :
    L.to_cart (L.to_frac p) = p := by
  unfold Lattice.to_cart Lattice.to_frac
  rw [Mat3.mulVec_mulVec, hinv, Mat3.mulVec_one]
  ext <;> simp

/-- Witness for C7 at the identity lattice and a concrete point. -/
theorem c7_roundtrip_witness :
    idLat.to_cart (idLat.to_frac ⟨1, 2, 3⟩) = ⟨1, 2, 3⟩ :=
  c7_roundtrip idLat ⟨1, 2, 3⟩ (by
    ext <;> simp [Mat3.mulMat, Mat3.mulVec, Mat3.one3, idLat])

/-! ### C6: wrap idempotence and wrap_frac range -/

theorem wrap_frac_eq_fract (L : Lattice) (f : Vec3) :
    L.wrap_frac f = ⟨Int.fract f.x, Int.fract f.y, Int.fract f.z⟩ := rfl

/-- C6: wrapping is idempotent (given the stored inverse is a left inverse
of the basis, the constructors' invariant), and each component of
`wrap_frac` lies in `[0, 1)`. -/
theorem c6_wrap_idempotent_and_range (L : Lattice) (p f : Vec3)
    (hinv : Mat3.mulMat L.inv_matrix L.matrix = Mat3.one3) :
    L.wrap (L.wrap p) = L.wrap p ∧
    (0 ≤ (L.wrap_frac f).x ∧ (L.wrap_frac f).x < 1) ∧
    (0 ≤ (L.wrap_frac f).y ∧ (L.wrap_frac f).y < 1) ∧
    (0 ≤ (L.wrap_frac f).z ∧ (L.wrap_frac f).z < 1) := by
  refine ⟨?_, ?_, ?_, ?_⟩
  · show L.to_cart (L.wrap_frac (L.to_frac (L.to_cart (L.wrap_frac (L.to_frac p))))) =
      L.to_cart (L.wrap_frac (L.to_frac p))
    have hback : ∀ g : Vec3, L.to_frac (L.to_cart g) = g := by
      intro g
      unfold Lattice.to_frac Lattice.to_cart
      have hg : Mat3.mulVec L.matrix g + L.origin - L.origin = Mat3.mulVec L.matrix g := by
        ext <;> simp
      rw [hg, Mat3.mulVec_mulVec, hinv, Mat3.mulVec_one]
    rw [hback]
    congr 1
    ext <;> simp [Lattice.wrap_frac, Int.fract_fract, ← Int.self_sub_floor]
  · exact ⟨Int.fract_nonneg _, Int.fract_lt_one _⟩
  · exact ⟨Int.fract_nonneg _, Int.fract_lt_one _⟩
  · exact ⟨Int.fract_nonneg _, Int.fract_lt_one _⟩

/-- Witness for C6 at the identity lattice and concrete points. -/
theorem c6_wrap_witness :
    idLat.wrap (idLat.wrap ⟨9, 18, -6⟩) = idLat.wrap ⟨9, 18, -6⟩ ∧
    0 ≤ (idLat.wrap_frac ⟨5 / 2, -1 / 4, 7⟩).x ∧ (idLat.wrap_frac ⟨5 / 2, -1 / 4, 7⟩).x < 1 := by
  have h := c6_wrap_idempotent_and_range idLat ⟨9, 18, -6⟩ ⟨5 / 2, -1 / 4, 7⟩
    (by ext <;> simp [Mat3.mulMat, Mat3.mulVec, Mat3.one3, idLat])
  exact ⟨h.1, h.2.1.1, h.2.1.2⟩

/-! ### C10: the stored inverse always matches the basis -/

theorem scale_by_ok_iff {L : Lattice} {v : ℝ} {L' : Lattice} :
    L.scale_by v = Except.ok L' ↔
      0 ≤ v ∧ Mat3.det (Mat3.smulMat v L.matrix) ≠ 0 ∧
      L' = { L with matrix := Mat3.smulMat v L.matrix,
                    inv_matrix := Mat3.inv3 (Mat3.smulMat v L.matrix) } := by
  unfold Lattice.scale_by
  split_ifs with hv
  · by_cases hd : Mat3.det (Mat3.smulMat v L.matrix) = 0
    · simp [get_inv_matrix_eq_error hd, Except.map, hv, hd]
    · simp [get_inv_matrix_eq_ok hd, Except.map, hv, hd, eq_comm]
  · simp [hv]

theorem scale_by_abc_ok_iff {L : Lattice} {v : ℝ} {i : Fin 3} {L' : Lattice} :
    L.scale_by_abc v i = Except.ok L' ↔
      0 ≤ v ∧ Mat3.det (Lattice.scaleCol L.matrix i v) ≠ 0 ∧
      L' = { L with matrix := Lattice.scaleCol L.matrix i v,
                    inv_matrix := Mat3.inv3 (Lattice.scaleCol L.matrix i v) } := by
  unfold Lattice.scale_by_abc
  split_ifs with hv
  · by_cases hd : Mat3.det (Lattice.scaleCol L.matrix i v) = 0
    · simp [get_inv_matrix_eq_error hd, Except.map, hv, hd]
    · simp [get_inv_matrix_eq_ok hd, Except.map, hv, hd, eq_comm]
  · simp [hv]

/-- C10: every constructor and every scaling operation that returns a
lattice leaves `inv_matrix` the two-sided inverse of `matrix`, and
`set_origin` changes only the origin. -/
theorem c10_inv_matrix_invariant :
    (∀ (m : Mat3) (L : Lattice), Lattice.from_matrix m = Except.ok L →
      L.matrix = m ∧ L.origin = 0 ∧
      Mat3.mulMat L.inv_matrix L.matrix = Mat3.one3 ∧
      Mat3.mulMat L.matrix L.inv_matrix = Mat3.one3) ∧
    (∀ (va vb vc : Vec3) (L : Lattice), Lattice.new va vb vc = Except.ok L →
      Mat3.mulMat L.inv_matrix L.matrix = Mat3.one3 ∧
      Mat3.mulMat L.matrix L.inv_matrix = Mat3.one3) ∧
    (∀ (L : Lattice) (v : ℝ) (L' : Lattice), L.scale_by v = Except.ok L' →
      L'.matrix = Mat3.smulMat v L.matrix ∧ L'.origin = L.origin ∧
      Mat3.mulMat L'.inv_matrix L'.matrix = Mat3.one3 ∧
      Mat3.mulMat L'.matrix L'.inv_matrix = Mat3.one3) ∧
    (∀ (L : Lattice) (v : ℝ) (i : Fin 3) (L' : Lattice),
      L.scale_by_abc v i = Except.ok L' →
      L'.matrix = Lattice.scaleCol L.matrix i v ∧ L'.origin = L.origin ∧
      Mat3.mulMat L'.inv_matrix L'.matrix = Mat3.one3 ∧
      Mat3.mulMat L'.matrix L'.inv_matrix = Mat3.one3) ∧
    (∀ (L : Lattice) (o : Vec3),
      (L.set_origin o).matrix = L.matrix ∧
      (L.set_origin o).inv_matrix = L.inv_matrix ∧
      (L.set_origin o).origin = o) := by
  refine ⟨?_, ?_, ?_, ?_, ?_⟩
  · intro m L h
    obtain ⟨hd, rfl⟩ := from_matrix_ok_iff.mp h
    exact ⟨rfl, rfl, Mat3.inv3_mul m hd, Mat3.mul_inv3 m hd⟩
  · intro va vb vc L h
    obtain ⟨hd, rfl⟩ := from_matrix_ok_iff.mp h
    exact ⟨Mat3.inv3_mul _ hd, Mat3.mul_inv3 _ hd⟩
  · intro L v L' h
    obtain ⟨hv, hd, rfl⟩ := scale_by_ok_iff.mp h
    exact ⟨rfl, rfl, Mat3.inv3_mul _ hd, Mat3.mul_inv3 _ hd⟩
  · intro L v i L' h
    obtain ⟨hv, hd, rfl⟩ := scale_by_abc_ok_iff.mp h
    exact ⟨rfl, rfl, Mat3.inv3_mul _ hd, Mat3.mul_inv3 _ hd⟩
  · intro L o
    exact ⟨rfl, rfl, rfl⟩

/-- A concrete nonsingular, non-identity matrix. -/
def dm2 : Mat3 := ⟨⟨2, 0, 0⟩, ⟨0, 1, 0⟩, ⟨0, 0, 1⟩⟩

/-- Witness for C10: `from_matrix` at a concrete nonsingular matrix
succeeds and its stored inverse is a two-sided inverse of the matrix. -/
theorem c10_inv_matrix_invariant_witness :
    Lattice.from_matrix dm2 = Except.ok ⟨dm2, 0, Mat3.inv3 dm2⟩ ∧
    Mat3.mulMat (Mat3.inv3 dm2) dm2 = Mat3.one3 := by
  have hd : Mat3.det dm2 ≠ 0 := by
    norm_num [Mat3.det, Vec3.dot, Vec3.cross, dm2]
  have hok : Lattice.from_matrix dm2 = Except.ok ⟨dm2, 0, Mat3.inv3 dm2⟩ :=
    from_matrix_ok_iff.mpr ⟨hd, rfl⟩
  exact ⟨hok, (c10_inv_matrix_invariant.1 dm2 ⟨dm2, 0, Mat3.inv3 dm2⟩ hok).2.2.1⟩

/-! ### C4: constructors on singular input panic rather than return -/

/-- C4 counterexample: for the (singular) zero matrix, `from_matrix` and
`new` do not return an error value to the caller: they hit the
`.expect("bad matrix")` panic (`RustPanic.badMatrix`), whose Rust type is
a process abort, not a `Result`.  This falsifies the claim that a
singular basis is rejected "by returning an explicit error result ...
rather than failing by panic". -/
theorem c4_counterexample :
    Lattice.from_matrix ⟨0, 0, 0⟩ = Except.error RustPanic.badMatrix ∧
    Lattice.new 0 0 0 = Except.error RustPanic.badMatrix := by
  have h : Lattice.from_matrix ⟨0, 0, 0⟩ = Except.error RustPanic.badMatrix :=
    from_matrix_error_iff.mpr (by norm_num [Mat3.det, Vec3.dot, Vec3.cross])
  exact ⟨h, h⟩

/-- C4 (amended): each constructor panics (`bad matrix`) on a singular
basis and otherwise returns a fully initialised lattice whose stored
inverse is a genuine inverse; `new` and `from_params` delegate to
`from_matrix`, so no partial object is ever produced. -/
theorem c4_amended_constructors_panic :
    (∀ m : Mat3,
      (Mat3.det m = 0 ∧ Lattice.from_matrix m = Except.error RustPanic.badMatrix) ∨
      (Mat3.det m ≠ 0 ∧ Lattice.from_matrix m = Except.ok ⟨m, 0, Mat3.inv3 m⟩ ∧
        Mat3.mulMat (Mat3.inv3 m) m = Mat3.one3)) ∧
    (∀ va vb vc : Vec3, Lattice.new va vb vc = Lattice.from_matrix ⟨va, vb, vc⟩) ∧
    (∀ a b c alpha beta gamma : ℝ, ∃ va vb vc : Vec3,
      Lattice.from_params a b c alpha beta gamma = Lattice.new va vb vc) := by
  refine ⟨?_, ?_, ?_⟩
  · intro m
    by_cases hd : Mat3.det m = 0
    · exact Or.inl ⟨hd, from_matrix_error_iff.mpr hd⟩
    · exact Or.inr ⟨hd, from_matrix_ok_iff.mpr ⟨hd, rfl⟩, Mat3.inv3_mul m hd⟩
  · intro va vb vc
    rfl
  · intro a b c alpha beta gamma
    exact ⟨_, _, _, rfl⟩

/-! ### C5: non-positive scale factors -/

/-- C5 counterexample: scaling by exactly zero is not rejected by the
`assert!(v.is_sign_positive())` guard (in Rust `(0.0).is_sign_positive()`
is `true`): `scale_by(0.0)` zeroes the matrix and then panics with
`bad matrix` inside `get_inv_matrix`, not with the claimed
`InvalidArgument`-style rejection. -/
theorem c5_counterexample :
    Lattice.scale_by idLat 0 = Except.error RustPanic.badMatrix ∧
    RustPanic.badMatrix ≠ RustPanic.invalidScaleFactor := by
  constructor
  · unfold Lattice.scale_by
    have h0 : Mat3.det (Mat3.smulMat 0 idLat.matrix) = 0 := by
      norm_num [Mat3.det, Mat3.smulMat, Vec3.dot, Vec3.cross, idLat, Mat3.one3]
    simp [get_inv_matrix_eq_error h0, Except.map]
  · intro h
    exact RustPanic.noConfusion h

/-- C5 (amended): a strictly negative factor makes every scaling
operation panic at the sign assertion before touching the lattice, while
a zero factor passes the sign check, zeroes the basis (or one column) and
then panics at the matrix inversion; no lattice is ever returned for a
non-positive factor, but the failure is a panic, not an
`InvalidArgument` error value, and zero is not caught by the guard. -/
theorem c5_amended_scale_rejection (L : Lattice) (v : ℝ) :
    (v < 0 → L.scale_by v = Except.error RustPanic.invalidScaleFactor ∧
      ∀ i : Fin 3, L.scale_by_abc v i = Except.error RustPanic.invalidScaleFactor) ∧
    L.scale_by 0 = Except.error RustPanic.badMatrix ∧
    (∀ i : Fin 3, L.scale_by_abc 0 i = Except.error RustPanic.badMatrix) := by
  refine ⟨?_, ?_, ?_⟩
  · intro hv
    have hv' : ¬(0 ≤ v) := not_le.mpr hv
    constructor
    · unfold Lattice.scale_by
      rw [if_neg hv']
    · intro i
      unfold Lattice.scale_by_abc
      rw [if_neg hv']
  · unfold Lattice.scale_by
    have h0 : Mat3.det (Mat3.smulMat 0 L.matrix) = 0 := by
      simp [Mat3.det, Mat3.smulMat, Vec3.dot, Vec3.cross]
    simp [get_inv_matrix_eq_error h0, Except.map]
  · intro i
    unfold Lattice.scale_by_abc
    have h0 : Mat3.det (Lattice.scaleCol L.matrix i 0) = 0 := by
      fin_cases i <;> simp [Mat3.det, Lattice.scaleCol, Vec3.dot, Vec3.cross] <;> ring_nf
    simp [get_inv_matrix_eq_error h0, Except.map]

/-- Witness for the amended C5 at concrete inputs. -/
theorem c5_amended_scale_rejection_witness :
    Lattice.scale_by idLat (-1) = Except.error RustPanic.invalidScaleFactor ∧
    Lattice.scale_by idLat 0 = Except.error RustPanic.badMatrix :=
  ⟨((c5_amended_scale_rejection idLat (-1)).1 (by norm_num)).1,
   (c5_amended_scale_rejection idLat 0).2.1⟩

/-! ### C9: supercell replication -/

/-- The a-major lexicographic enumeration of image triples produced by
`iproduct!(ra, rb, rc)`. -/
def lexTriples (ra rb rc : List ℤ) : List (ℤ × ℤ × ℤ) :=
  ra.flatMap fun i => rb.flatMap fun j => rc.map fun k => (i, j, k)

theorem replicate_eq_flatMap (L : Lattice) (points : List Vec3) (ra rb rc : List ℤ) :
    L.replicate points ra rb rc =
      (lexTriples ra rb rc).flatMap fun n =>
        points.map fun p => L.to_cart (castTriple n) + p := rfl

theorem length_flatMap_const {α β : Type} (l : List α) (g : α → List β) (k : ℕ)
    (hk : ∀ a, (g a).length = k) : (l.flatMap g).length = l.length * k := by
  induction l with
  | nil => simp
  | cons a t ih =>
    simp only [List.flatMap_cons, List.length_append, List.length_cons, ih, hk a]
    ring

theorem getElem?_flatMap_const {α β : Type} (g : α → List β) (k : ℕ)
    (hk : ∀ a, (g a).length = k) :
    ∀ (l : List α) (ia j : ℕ) (a : α), l[ia]? = some a → j < k →
      (l.flatMap g)[ia * k + j]? = (g a)[j]? := by
  intro l
  induction l with
  | nil => intro ia j a h _; simp at h
  | cons hd tl ih =>
    intro ia j a h hj
    cases ia with
    | zero =>
      rw [List.getElem?_cons_zero] at h
      have ha : hd = a := by injection h
      subst ha
      have hlt : 0 * k + j < (g hd).length := by rw [hk hd]; simpa using hj
      rw [show (hd :: tl).flatMap g = g hd ++ tl.flatMap g by simp [List.flatMap_cons]]
      rw [List.getElem?_append_left hlt]
      simp
    | succ m =>
      rw [List.getElem?_cons_succ] at h
      rw [show (hd :: tl).flatMap g = g hd ++ tl.flatMap g by simp [List.flatMap_cons]]
      have hidx : (m + 1) * k + j = (g hd).length + (m * k + j) := by
        rw [hk hd]; ring
      rw [hidx, List.getElem?_append_right (Nat.le_add_right _ _)]
      rw [Nat.add_sub_cancel_left]
      exact ih m j a h hj

/-- C9: `replicate` is image-major and point-minor: the output has exactly
(number of images) * (number of points) entries, the entry at position
`ia * |points| + ip` is `points[ip]` translated by `to_cart` of the
`ia`-th image triple of the a-major lexicographic enumeration, and
replicating a single point over `-1..=1` on each axis yields exactly 27
points. -/
theorem c9_replicate_order (L : Lattice) (points : List Vec3) (ra rb rc : List ℤ) :
    (L.replicate points ra rb rc).length = (lexTriples ra rb rc).length * points.length ∧
    (∀ (ia ip : ℕ) (n : ℤ × ℤ × ℤ) (p : Vec3),
      (lexTriples ra rb rc)[ia]? = some n → points[ip]? = some p → ip < points.length →
      (L.replicate points ra rb rc)[ia * points.length + ip]? =
        some (L.to_cart (castTriple n) + p)) ∧
    (∀ q : Vec3, (L.replicate [q] [-1, 0, 1] [-1, 0, 1] [-1, 0, 1]).length = 27) := by
  have hk : ∀ n : ℤ × ℤ × ℤ,
      ((fun n => points.map fun p => L.to_cart (castTriple n) + p) n).length =
        points.length := by
    intro n; simp
  refine ⟨?_, ?_, ?_⟩
  · rw [replicate_eq_flatMap]
    exact length_flatMap_const _ _ _ hk
  · intro ia ip n p hn hp hip
    rw [replicate_eq_flatMap]
    rw [getElem?_flatMap_const _ points.length hk _ ia ip n hn hip]
    simp [hp]
  · intro q
    rw [replicate_eq_flatMap]
    rw [length_flatMap_const _ _ 1 (by intro n; simp)]
    decide

/-- Witness for C9 at concrete inputs: the second enumerated image of the
27-image box is `(-1, -1, 0)` and lands at output index 1 for a single
input point. -/
theorem c9_replicate_order_witness :
    (idLat.replicate [0] [-1, 0, 1] [-1, 0, 1] [-1, 0, 1])[1 * 1 + 0]? =
      some (idLat.to_cart (castTriple (-1, -1, 0)) + 0) ∧
    (idLat.replicate [0] [-1, 0, 1] [-1, 0, 1] [-1, 0, 1]).length = 27 := by
  constructor
  · exact (c9_replicate_order idLat [0] [-1, 0, 1] [-1, 0, 1] [-1, 0, 1]).2.1 1 0
      (-1, -1, 0) 0 (by decide) rfl (by decide)
  · exact (c9_replicate_order idLat [0] [-1, 0, 1] [-1, 0, 1] [-1, 0, 1]).2.2 0

/-! ### C3: the fast path on orthorhombic lattices -/

/-- Structure of an orthorhombic lattice: the six off-diagonal entries of
the basis vanish, the diagonal entries are nonzero, and both the stored
inverse and the basis act diagonally. -/
theorem ortho_structure (L : Lattice) (hortho : L.is_orthorhombic)
    (hinv2 : Mat3.mulMat L.matrix L.inv_matrix = Mat3.one3) :
    L.matrix.ca.x ≠ 0 ∧ L.matrix.cb.y ≠ 0 ∧ L.matrix.cc.z ≠ 0 ∧
    (∀ v : Vec3, Mat3.mulVec L.matrix v =
      ⟨L.matrix.ca.x * v.x, L.matrix.cb.y * v.y, L.matrix.cc.z * v.z⟩) ∧
    (∀ v : Vec3, Mat3.mulVec L.inv_matrix v =
      ⟨v.x / L.matrix.ca.x, v.y / L.matrix.cb.y, v.z / L.matrix.cc.z⟩) := by
  have hcay : L.matrix.ca.y = 0 := by
    have h := congrArg (fun m : Mat3 => m.ca.y) hortho
    simpa [Mat3.diagOnly] using h.symm
  have hcaz : L.matrix.ca.z = 0 := by
    have h := congrArg (fun m : Mat3 => m.ca.z) hortho
    simpa [Mat3.diagOnly] using h.symm
  have hcbx : L.matrix.cb.x = 0 := by
    have h := congrArg (fun m : Mat3 => m.cb.x) hortho
    simpa [Mat3.diagOnly] using h.symm
  have hcbz : L.matrix.cb.z = 0 := by
    have h := congrArg (fun m : Mat3 => m.cb.z) hortho
    simpa [Mat3.diagOnly] using h.symm
  have hccx : L.matrix.cc.x = 0 := by
    have h := congrArg (fun m : Mat3 => m.cc.x) hortho
    simpa [Mat3.diagOnly] using h.symm
  have hccy : L.matrix.cc.y = 0 := by
    have h := congrArg (fun m : Mat3 => m.cc.y) hortho
    simpa [Mat3.diagOnly] using h.symm
  have e11 : L.matrix.ca.x * L.inv_matrix.ca.x = 1 := by
    have h := congrArg (fun m : Mat3 => m.ca.x) hinv2
    simpa [Mat3.mulMat, Mat3.mulVec, Mat3.one3, hcbx, hccx] using h
  have e22 : L.matrix.cb.y * L.inv_matrix.cb.y = 1 := by
    have h := congrArg (fun m : Mat3 => m.cb.y) hinv2
    simpa [Mat3.mulMat, Mat3.mulVec, Mat3.one3, hcay, hccy] using h
  have e33 : L.matrix.cc.z * L.inv_matrix.cc.z = 1 := by
    have h := congrArg (fun m : Mat3 => m.cc.z) hinv2
    simpa [Mat3.mulMat, Mat3.mulVec, Mat3.one3, hcaz, hcbz] using h
  have ha : L.matrix.ca.x ≠ 0 := left_ne_zero_of_mul_eq_one e11
  have hb : L.matrix.cb.y ≠ 0 := left_ne_zero_of_mul_eq_one e22
  have hc : L.matrix.cc.z ≠ 0 := left_ne_zero_of_mul_eq_one e33
  have e21 : L.matrix.cb.y * L.inv_matrix.ca.y = 0 := by
    have h := congrArg (fun m : Mat3 => m.ca.y) hinv2
    simpa [Mat3.mulMat, Mat3.mulVec, Mat3.one3, hcay, hccy] using h
  have e31 : L.matrix.cc.z * L.inv_matrix.ca.z = 0 := by
    have h := congrArg (fun m : Mat3 => m.ca.z) hinv2
    simpa [Mat3.mulMat, Mat3.mulVec, Mat3.one3, hcaz, hcbz] using h
  have e12 : L.matrix.ca.x * L.inv_matrix.cb.x = 0 := by
    have h := congrArg (fun m : Mat3 => m.cb.x) hinv2
    simpa [Mat3.mulMat, Mat3.mulVec, Mat3.one3, hcbx, hccx] using h
  have e32 : L.matrix.cc.z * L.inv_matrix.cb.z = 0 := by
    have h := congrArg (fun m : Mat3 => m.cb.z) hinv2
    simpa [Mat3.mulMat, Mat3.mulVec, Mat3.one3, hcaz, hcbz] using h
  have e13 : L.matrix.ca.x * L.inv_matrix.cc.x = 0 := by
    have h := congrArg (fun m : Mat3 => m.cc.x) hinv2
    simpa [Mat3.mulMat, Mat3.mulVec, Mat3.one3, hcbx, hccx] using h
  have e23 : L.matrix.cb.y * L.inv_matrix.cc.y = 0 := by
    have h := congrArg (fun m : Mat3 => m.cc.y) hinv2
    simpa [Mat3.mulMat, Mat3.mulVec, Mat3.one3, hcay, hccy] using h
  have iax : L.inv_matrix.ca.x = 1 / L.matrix.ca.x := by
    field_simp
    linarith [e11]
  have iby : L.inv_matrix.cb.y = 1 / L.matrix.cb.y := by
    field_simp
    linarith [e22]
  have icz : L.inv_matrix.cc.z = 1 / L.matrix.cc.z := by
    field_simp
    linarith [e33]
  have iay : L.inv_matrix.ca.y = 0 := (mul_eq_zero.mp e21).resolve_left hb
  have iaz : L.inv_matrix.ca.z = 0 := (mul_eq_zero.mp e31).resolve_left hc
  have ibx : L.inv_matrix.cb.x = 0 := (mul_eq_zero.mp e12).resolve_left ha
  have ibz : L.inv_matrix.cb.z = 0 := (mul_eq_zero.mp e32).resolve_left hc
  have icx : L.inv_matrix.cc.x = 0 := (mul_eq_zero.mp e13).resolve_left ha
  have icy : L.inv_matrix.cc.y = 0 := (mul_eq_zero.mp e23).resolve_left hb
  refine ⟨ha, hb, hc, ?_, ?_⟩
  · intro v
    ext <;> simp [Mat3.mulVec, hcay, hcaz, hcbx, hcbz, hccx, hccy]
  · intro v
    ext <;>
      simp [Mat3.mulVec, iax, iay, iaz, ibx, iby, ibz, icx, icy, icz] <;>
      field_simp

/-- Independent per-axis reduction `t - m * round(t / m)` (round ties away
from zero), the axiswise form the fast path takes on an orthorhombic
basis. -/
def axisRed (m t : ℝ) : ℝ := t - m * (roundAZ (t / m) : ℝ)

theorem abs_axisRed_le (m t : ℝ) (hm : m ≠ 0) : |axisRed m t| ≤ |m| / 2 := by
  have h1 : axisRed m t = m * (t / m - (roundAZ (t / m) : ℝ)) := by
    unfold axisRed
    field_simp
  rw [h1, abs_mul]
  have h2 := abs_sub_roundAZ_le (t / m)
  have h3 : 0 ≤ |m| := abs_nonneg m
  nlinarith

/-- The per-axis reduction beats every other integer translate of `t`. -/
theorem abs_axisRed_le_translate (m t : ℝ) (hm : m ≠ 0) (k : ℤ) :
    |axisRed m t| ≤ |t + m * (k : ℝ)| := by
  have h1 : axisRed m t = m * (t / m - (roundAZ (t / m) : ℝ)) := by
    unfold axisRed; field_simp
  have h2 : t + m * (k : ℝ) = m * (t / m - ((-k : ℤ) : ℝ)) := by
    push_cast
    field_simp
    try ring
  rw [h1, h2, abs_mul, abs_mul]
  exact mul_le_mul_of_nonneg_left (roundAZ_nearest (t / m) (-k)) (abs_nonneg m)

/-- The Tuckerman fast path acts as the independent per-axis reduction on
an orthorhombic lattice with zero origin. -/
theorem ortho_tuckerman (L : Lattice) (d : Vec3) (hortho : L.is_orthorhombic)
    (ho : L.origin = 0)
    (hinv2 : Mat3.mulMat L.matrix L.inv_matrix = Mat3.one3) :
    L.apply_mic_tuckerman d =
      ⟨axisRed L.matrix.ca.x d.x, axisRed L.matrix.cb.y d.y,
       axisRed L.matrix.cc.z d.z⟩ := by
  obtain ⟨ha, hb, hc, hM, hI⟩ := ortho_structure L hortho hinv2
  unfold Lattice.apply_mic_tuckerman Lattice.to_frac Lattice.to_cart
  rw [ho]
  have hsub : d - (0 : Vec3) = d := by ext <;> simp
  rw [hsub, hI d]
  simp only [hM]
  unfold axisRed
  ext <;> (simp; field_simp; try ring)

/-- Modelled from the spec claim's wording for C3: wrapping `d`
independently on each axis into the half-open interval
`[-width/2, width/2)`, realised by `x - w * floor(x / w + 1/2)`. -/
def specOrthoWrap (L : Lattice) (d : Vec3) : Vec3 :=
  ⟨d.x - L.widths.1 * (⌊d.x / L.widths.1 + 1 / 2⌋ : ℝ),
   d.y - L.widths.2.1 * (⌊d.y / L.widths.2.1 + 1 / 2⌋ : ℝ),
   d.z - L.widths.2.2 * (⌊d.z / L.widths.2.2 + 1 / 2⌋ : ℝ)⟩

/-- `x - w * floor(x / w + 1/2)` indeed lies in `[-w/2, w/2)` for any
positive `w`, so `specOrthoWrap` faithfully renders the claim's half-open
boundary convention. -/
theorem specWrap_mem (w x : ℝ) (hw : 0 < w) :
    -(w / 2) ≤ x - w * (⌊x / w + 1 / 2⌋ : ℝ) ∧
    x - w * (⌊x / w + 1 / 2⌋ : ℝ) < w / 2 := by
  have h1 : (⌊x / w + 1 / 2⌋ : ℝ) ≤ x / w + 1 / 2 := Int.floor_le _
  have h2 : x / w + 1 / 2 < (⌊x / w + 1 / 2⌋ : ℝ) + 1 := Int.lt_floor_add_one _
  constructor
  · have := mul_le_mul_of_nonneg_left h1 (le_of_lt hw)
    have hxw : w * (x / w) = x := by field_simp
    nlinarith
  · have := mul_lt_mul_of_pos_left h2 hw
    have hxw : w * (x / w) = x := by field_simp
    nlinarith

theorem idLat_inv2 : Mat3.mulMat idLat.matrix idLat.inv_matrix = Mat3.one3 := by
  ext <;> simp [Mat3.mulMat, Mat3.mulVec, Mat3.one3, idLat]

theorem idLat_ortho : idLat.is_orthorhombic := rfl

theorem idLat_widths : idLat.widths = (1, 1, 1) := by
  unfold Lattice.widths Lattice.volume Lattice.lengths idLat
  norm_num [Mat3.det, Vec3.dot, Vec3.cross, Mat3.one3, Vec3.norm, Vec3.normSq,
    Real.sqrt_one]

/-- C3 counterexample: on the (orthorhombic) identity lattice the
fast-path rounding breaks ties away from zero, so at the exact cell
boundary `d = (-1/2, 0, 0)` the code returns `(1/2, 0, 0)`, which is NOT
in the claimed half-open interval `[-width/2, width/2)`; per-axis
wrapping into `[-w/2, w/2)` would return `(-1/2, 0, 0)`. -/
theorem c3_counterexample :
    idLat.is_orthorhombic ∧
    idLat.apply_mic ⟨-(1 / 2), 0, 0⟩ = ⟨1 / 2, 0, 0⟩ ∧
    specOrthoWrap idLat ⟨-(1 / 2), 0, 0⟩ = ⟨-(1 / 2), 0, 0⟩ ∧
    idLat.apply_mic ⟨-(1 / 2), 0, 0⟩ ≠ specOrthoWrap idLat ⟨-(1 / 2), 0, 0⟩ := by
  have hmic : idLat.apply_mic ⟨-(1 / 2), 0, 0⟩ = ⟨1 / 2, 0, 0⟩ := by
    have hm : idLat.apply_mic ⟨-(1 / 2), 0, 0⟩ = idLat.apply_mic_tuckerman ⟨-(1 / 2), 0, 0⟩ := by
      unfold Lattice.apply_mic
      simp [idLat_ortho]
    rw [hm, ortho_tuckerman idLat _ idLat_ortho rfl idLat_inv2]
    have hr : roundAZ (-(1 / 2) : ℝ) = -1 := by
      unfold roundAZ
      norm_num
    have hr0 : roundAZ (0 : ℝ) = 0 := by
      unfold roundAZ
      norm_num
    have hax : ∀ t : ℝ, axisRed 1 t = t - (roundAZ t : ℝ) := by
      intro t; unfold axisRed; norm_num
    show (⟨axisRed 1 (-(1 / 2)), axisRed 1 0, axisRed 1 0⟩ : Vec3) = ⟨1 / 2, 0, 0⟩
    rw [hax, hax, hr, hr0]
    refine Vec3.ext ?_ ?_ ?_ <;> push_cast <;> norm_num
  have hspec : specOrthoWrap idLat ⟨-(1 / 2), 0, 0⟩ = ⟨-(1 / 2), 0, 0⟩ := by
    unfold specOrthoWrap
    rw [idLat_widths]
    ext <;> norm_num
  refine ⟨idLat_ortho, hmic, hspec, ?_⟩
  rw [hmic, hspec]
  intro h
  have := congrArg (fun v : Vec3 => v.x) h
  norm_num at this

/-- C3 (amended): on an orthorhombic lattice with zero origin (and the
stored inverse actually inverting the basis), `apply_mic` wraps each axis
independently via `d_i - m_ii * round(d_i / m_ii)` with ties rounded away
from zero; each component is bounded by half the corresponding diagonal
entry in absolute value, i.e. the result lies in the closed box
`[-|m_ii|/2, |m_ii|/2]`, agreeing with the claimed half-open convention
except at exact boundary ties. -/
theorem c3_amended_ortho_per_axis (L : Lattice) (d : Vec3)
    (hortho : L.is_orthorhombic) (ho : L.origin = 0)
    (hinv2 : Mat3.mulMat L.matrix L.inv_matrix = Mat3.one3) :
    L.apply_mic d =
      ⟨axisRed L.matrix.ca.x d.x, axisRed L.matrix.cb.y d.y,
       axisRed L.matrix.cc.z d.z⟩ ∧
    |(L.apply_mic d).x| ≤ |L.matrix.ca.x| / 2 ∧
    |(L.apply_mic d).y| ≤ |L.matrix.cb.y| / 2 ∧
    |(L.apply_mic d).z| ≤ |L.matrix.cc.z| / 2 := by
  obtain ⟨ha, hb, hc, hM, hI⟩ := ortho_structure L hortho hinv2
  have hmic : L.apply_mic d = L.apply_mic_tuckerman d := by
    unfold Lattice.apply_mic
    simp [hortho]
  have htuck := ortho_tuckerman L d hortho ho hinv2
  rw [hmic, htuck]
  exact ⟨rfl, abs_axisRed_le _ _ ha, abs_axisRed_le _ _ hb, abs_axisRed_le _ _ hc⟩

/-- Witness for the amended C3 at the identity lattice. -/
theorem c3_amended_ortho_per_axis_witness :
    idLat.apply_mic ⟨3, 0, 0⟩ =
      ⟨axisRed idLat.matrix.ca.x 3, axisRed idLat.matrix.cb.y 0,
       axisRed idLat.matrix.cc.z 0⟩ ∧
    |(idLat.apply_mic ⟨3, 0, 0⟩).x| ≤ |idLat.matrix.ca.x| / 2 := by
  have h := c3_amended_ortho_per_axis idLat ⟨3, 0, 0⟩ idLat_ortho rfl idLat_inv2
  exact ⟨h.1, h.2.1⟩

/-! ### C8: distance symmetry machinery -/

/-- Negation of an image triple. -/
def neg3 (n : ℤ × ℤ × ℤ) : ℤ × ℤ × ℤ := (-n.1, -n.2.1, -n.2.2)

theorem rangeSym_map_neg (n : ℕ) :
    (rangeSym n).map (fun i => -i) = (rangeSym n).reverse := by
  unfold rangeSym
  rw [List.map_map, ← List.map_reverse]
  refine List.ext_getElem (by simp) ?_
  intro i h1 h2
  rw [List.length_map, List.length_range] at h1
  simp only [List.getElem_map, List.getElem_reverse, List.getElem_range,
    List.length_range, Function.comp]
  omega

theorem flatMap_prod_map_neg (ra rb rc : List ℤ)
    (hra : ra.map (fun i => -i) = ra.reverse)
    (hrb : rb.map (fun i => -i) = rb.reverse)
    (hrc : rc.map (fun i => -i) = rc.reverse) :
    ((ra.flatMap fun i => rb.flatMap fun j => rc.map fun k =>
        ((i, j, k) : ℤ × ℤ × ℤ)).map neg3) =
      (ra.flatMap fun i => rb.flatMap fun j => rc.map fun k => (i, j, k)).reverse := by
  rw [List.map_flatMap, List.reverse_flatMap, ← hra, List.flatMap_map]
  congr 1
  funext i
  simp only [Function.comp]
  rw [List.map_flatMap, List.reverse_flatMap, ← hrb, List.flatMap_map]
  congr 1
  funext j
  simp only [Function.comp]
  rw [List.map_map, ← List.map_reverse, ← hrc, List.map_map]
  rfl

theorem lexBox_map_neg (na nb nc : ℕ) :
    (lexBox na nb nc).map neg3 = (lexBox na nb nc).reverse :=
  flatMap_prod_map_neg _ _ _ (rangeSym_map_neg na) (rangeSym_map_neg nb)
    (rangeSym_map_neg nc)

theorem sub_zero_vec (v : Vec3) : v - (0 : Vec3) = v := by ext <;> simp

theorem add_zero_vec (v : Vec3) : v + (0 : Vec3) = v := by ext <;> simp

/-- With zero origin the Tuckerman fast path is odd. -/
theorem tuckerman_neg (L : Lattice) (d : Vec3) (ho : L.origin = 0) :
    L.apply_mic_tuckerman (-d) = -(L.apply_mic_tuckerman d) := by
  unfold Lattice.apply_mic_tuckerman Lattice.to_frac Lattice.to_cart
  rw [ho]
  rw [sub_zero_vec, sub_zero_vec, Mat3.mulVec_neg]
  rw [add_zero_vec, add_zero_vec]
  set f := Mat3.mulVec L.inv_matrix d with hf
  have hin : (⟨(-f).x - (roundAZ (-f).x : ℝ), (-f).y - (roundAZ (-f).y : ℝ),
      (-f).z - (roundAZ (-f).z : ℝ)⟩ : Vec3) =
      -⟨f.x - (roundAZ f.x : ℝ), f.y - (roundAZ f.y : ℝ), f.z - (roundAZ f.z : ℝ)⟩ := by
    ext <;> simp [roundAZ_neg] <;> push_cast <;> ring
  rw [hin, Mat3.mulVec_neg]

/-- First component of one brute-force step is a running minimum. -/
theorem micStep_fst (L : Lattice) (p : Vec3) (acc : ℝ × Vec3 × Vec3) (n : ℤ × ℤ × ℤ) :
    (L.micStep p acc n).1 = min acc.1 (Vec3.norm (p + L.to_cart (castTriple n))) := by
  unfold Lattice.micStep
  dsimp only
  split_ifs with h
  · simp [min_eq_right (le_of_lt h)]
  · simp [min_eq_left (not_lt.mp h)]

/-- The first component of the brute-force fold is the plain minimum fold
of the candidate norms. -/
theorem micFold_fst (L : Lattice) (p : Vec3) :
    ∀ (l : List (ℤ × ℤ × ℤ)) (acc : ℝ × Vec3 × Vec3),
      (l.foldl (L.micStep p) acc).1 =
        l.foldl (fun m n => min m (Vec3.norm (p + L.to_cart (castTriple n)))) acc.1 := by
  intro l
  induction l with
  | nil => intro acc; rfl
  | cons hd tl ih =>
    intro acc
    rw [List.foldl_cons, List.foldl_cons, ih, micStep_fst]

/-- Invariant of the brute-force fold: it either still carries the
`(f64::MAX, 0)` initial accumulator, or holds a candidate whose norm is
its recorded distance, strictly below `f64::MAX`. -/
theorem micFold_inv (L : Lattice) (p : Vec3) :
    ∀ (l : List (ℤ × ℤ × ℤ)) (acc : ℝ × Vec3 × Vec3),
      (acc.1 = f64MAX ∧ acc.2.1 = 0) ∨
        (Vec3.norm acc.2.1 = acc.1 ∧ acc.1 < f64MAX) →
      ((l.foldl (L.micStep p) acc).1 = f64MAX ∧ (l.foldl (L.micStep p) acc).2.1 = 0) ∨
        (Vec3.norm (l.foldl (L.micStep p) acc).2.1 = (l.foldl (L.micStep p) acc).1 ∧
          (l.foldl (L.micStep p) acc).1 < f64MAX) := by
  intro l
  induction l with
  | nil => intro acc h; exact h
  | cons hd tl ih =>
    intro acc h
    rw [List.foldl_cons]
    apply ih
    unfold Lattice.micStep
    dsimp only
    split_ifs with hlt
    · right
      refine ⟨rfl, ?_⟩
      rcases h with ⟨h1, _⟩ | ⟨_, h1⟩
      · rw [h1] at hlt; exact hlt
      · exact lt_trans hlt h1
    · exact h

/-- The norm of the brute-force result equals the minimum candidate norm
when that minimum beats the `f64::MAX` sentinel, and is `0` (the unchanged
initial accumulator) otherwise. -/
theorem brute_force_norm (L : Lattice) (d : Vec3) :
    Vec3.norm (L.apply_mic_brute_force d) =
      (fun m => if m < f64MAX then m else 0)
        ((L.relevant_images (Vec3.norm (L.apply_mic_tuckerman d))).foldl
          (fun m n => min m (Vec3.norm (L.apply_mic_tuckerman d + L.to_cart (castTriple n))))
          f64MAX) := by
  unfold Lattice.apply_mic_brute_force
  set p := L.apply_mic_tuckerman d with hp
  set l := L.relevant_images (Vec3.norm p) with hl
  have hfst := micFold_fst L p l (f64MAX, 0, 0)
  have hinv := micFold_inv L p l (f64MAX, 0, 0) (Or.inl ⟨rfl, rfl⟩)
  dsimp only at hfst ⊢
  rcases hinv with ⟨h1, h2⟩ | ⟨h1, h2⟩
  · rw [h2]
    rw [hfst] at h1
    rw [h1]
    simp [Vec3.norm_zero]
  · rw [h1]
    rw [hfst] at h2 ⊢
    rw [if_pos h2]

/-- Minimum-fold over the symmetric image box is invariant under negating
the centre vector (zero origin): negating all images is a permutation of
the box. -/
theorem minfold_neg (L : Lattice) (t : Vec3) (ho : L.origin = 0) (na nb nc : ℕ) :
    (lexBox na nb nc).foldl
        (fun m n => min m (Vec3.norm (-t + L.to_cart (castTriple n)))) f64MAX =
      (lexBox na nb nc).foldl
        (fun m n => min m (Vec3.norm (t + L.to_cart (castTriple n)))) f64MAX := by
  have hpt : ∀ n, Vec3.norm (-t + L.to_cart (castTriple n)) =
      Vec3.norm (t + L.to_cart (castTriple (neg3 n))) := by
    intro n
    have hc : castTriple (neg3 n) = -(castTriple n) := by
      unfold castTriple neg3
      ext <;> simp <;> push_cast <;> try ring
    have he : -t + L.to_cart (castTriple n) = -(t + L.to_cart (castTriple (neg3 n))) := by
      unfold Lattice.to_cart
      rw [ho, hc, Mat3.mulVec_neg]
      ext <;> simp <;> ring
    rw [he, Vec3.norm_neg]
  have hfun : (lexBox na nb nc).foldl
      (fun m n => min m (Vec3.norm (-t + L.to_cart (castTriple n)))) f64MAX =
      (lexBox na nb nc).foldl
        (fun m n => min m (Vec3.norm (t + L.to_cart (castTriple (neg3 n))))) f64MAX := by
    congr 1
    funext m n
    rw [hpt]
  rw [hfun]
  have hmap : (lexBox na nb nc).foldl
      (fun m n => min m (Vec3.norm (t + L.to_cart (castTriple (neg3 n))))) f64MAX =
      ((lexBox na nb nc).map neg3).foldl
        (fun m n => min m (Vec3.norm (t + L.to_cart (castTriple n)))) f64MAX :=
    (List.foldl_map neg3 (fun m n => min m (Vec3.norm (t + L.to_cart (castTriple n))))
      (lexBox na nb nc) f64MAX).symm
  rw [hmap, lexBox_map_neg]
  exact (List.reverse_perm _).foldl_eq' (fun x _ y _ z => by rw [min_right_comm]) f64MAX

/-- C8 (amended): for every lattice with zero origin, the MIC distance is
symmetric in its two points.  (With a nonzero origin, symmetry fails: see
the counterexample.) -/
theorem c8_amended_distance_symm (L : Lattice) (p1 p2 : Vec3) (ho : L.origin = 0) :
    L.distance p1 p2 = L.distance p2 p1 := by
  unfold Lattice.distance
  have hneg : p1 - p2 = -(p2 - p1) := by ext <;> simp
  rw [hneg]
  set d := p2 - p1 with hd
  have htn := tuckerman_neg L d ho
  unfold Lattice.apply_mic
  dsimp only
  by_cases hortho : L.is_orthorhombic
  · rw [if_pos hortho, if_pos hortho, htn, Vec3.norm_neg]
  · rw [if_neg hortho, if_neg hortho, htn, Vec3.norm_neg]
    by_cases hlt : Vec3.norm (L.apply_mic_tuckerman d) < 0.5 * L.widthsMin
    · rw [if_pos hlt, if_pos hlt, Vec3.norm_neg]
    · rw [if_neg hlt, if_neg hlt]
      rw [brute_force_norm, brute_force_norm]
      rw [htn, Vec3.norm_neg]
      unfold Lattice.relevant_images
      dsimp only
      rw [minfold_neg L (L.apply_mic_tuckerman d) ho]

/-- Evaluation helper for the fast path at a concrete input. -/
theorem tuckerman_eval (L : Lattice) (p f : Vec3)
    (hf : Mat3.mulVec L.inv_matrix (p - L.origin) = f) :
    L.apply_mic_tuckerman p =
      Mat3.mulVec L.matrix
        ⟨f.x - (roundAZ f.x : ℝ), f.y - (roundAZ f.y : ℝ), f.z - (roundAZ f.z : ℝ)⟩ +
        L.origin := by
  unfold Lattice.apply_mic_tuckerman Lattice.to_frac Lattice.to_cart
  rw [hf]

/-- Evaluation helper for norms of concrete vectors. -/
theorem norm_eval (v : Vec3) (c : ℝ) (hc : 0 ≤ c) (h : Vec3.normSq v = c ^ 2) :
    Vec3.norm v = c := by
  unfold Vec3.norm
  rw [h, Real.sqrt_sq hc]

/-- An orthorhombic lattice `diag(10, 1, 1)` whose origin has been moved
to `(3, 0, 0)` by `set_origin`; the stored inverse is the true inverse. -/
def oLat : Lattice :=
  ⟨⟨⟨10, 0, 0⟩, ⟨0, 1, 0⟩, ⟨0, 0, 1⟩⟩, ⟨3, 0, 0⟩, ⟨⟨1 / 10, 0, 0⟩, ⟨0, 1, 0⟩, ⟨0, 0, 1⟩⟩⟩

theorem oLat_ortho : oLat.is_orthorhombic := rfl

theorem oLat_mic_pos : oLat.apply_mic ⟨6, 0, 0⟩ = ⟨6, 0, 0⟩ := by
  have hm : oLat.apply_mic ⟨6, 0, 0⟩ = oLat.apply_mic_tuckerman ⟨6, 0, 0⟩ := by
    unfold Lattice.apply_mic
    simp [oLat_ortho]
  rw [hm, tuckerman_eval oLat _ ⟨3 / 10, 0, 0⟩ (by ext <;> norm_num [Mat3.mulVec, oLat])]
  have hr : roundAZ ((3 : ℝ) / 10) = 0 := by
    unfold roundAZ
    norm_num
  have hr0 : roundAZ (0 : ℝ) = 0 := by
    unfold roundAZ
    norm_num
  rw [hr, hr0]
  ext <;> norm_num [Mat3.mulVec, oLat]

theorem oLat_mic_neg : oLat.apply_mic ⟨-6, 0, 0⟩ = ⟨4, 0, 0⟩ := by
  have hm : oLat.apply_mic ⟨-6, 0, 0⟩ = oLat.apply_mic_tuckerman ⟨-6, 0, 0⟩ := by
    unfold Lattice.apply_mic
    simp [oLat_ortho]
  rw [hm, tuckerman_eval oLat _ ⟨-(9 / 10), 0, 0⟩ (by ext <;> norm_num [Mat3.mulVec, oLat])]
  have hr : roundAZ (-(9 / 10) : ℝ) = -1 := by
    unfold roundAZ
    norm_num
  have hr0 : roundAZ (0 : ℝ) = 0 := by
    unfold roundAZ
    norm_num
  rw [hr, hr0]
  ext <;> norm_num [Mat3.mulVec, oLat]

/-- C8 counterexample: with the origin at `(3, 0, 0)` on the orthorhombic
lattice `diag(10, 1, 1)`, `distance` is NOT symmetric: the fast path
rounds the origin-shifted fractional coordinates, so
`distance(0, (6,0,0)) = 6` but `distance((6,0,0), 0) = 4`. -/
theorem c8_counterexample :
    oLat.distance ⟨0, 0, 0⟩ ⟨6, 0, 0⟩ = 6 ∧
    oLat.distance ⟨6, 0, 0⟩ ⟨0, 0, 0⟩ = 4 ∧
    (6 : ℝ) ≠ 4 := by
  refine ⟨?_, ?_, by norm_num⟩
  · unfold Lattice.distance
    have h1 : (⟨6, 0, 0⟩ : Vec3) - ⟨0, 0, 0⟩ = ⟨6, 0, 0⟩ := by ext <;> norm_num
    rw [h1, oLat_mic_pos]
    exact norm_eval _ 6 (by norm_num) (by norm_num [Vec3.normSq])
  · unfold Lattice.distance
    have h1 : (⟨0, 0, 0⟩ : Vec3) - ⟨6, 0, 0⟩ = ⟨-6, 0, 0⟩ := by ext <;> norm_num
    rw [h1, oLat_mic_neg]
    exact norm_eval _ 4 (by norm_num) (by norm_num [Vec3.normSq])

/-- Witness for the amended C8 at a concrete zero-origin lattice. -/
theorem c8_amended_distance_symm_witness :
    idLat.distance ⟨1, 2, 3⟩ ⟨5, 5, 5⟩ = idLat.distance ⟨5, 5, 5⟩ ⟨1, 2, 3⟩ :=
  c8_amended_distance_symm idLat ⟨1, 2, 3⟩ ⟨5, 5, 5⟩ rfl

/-! ### C2: the hybrid policy, rendered from the spec's words -/

/-- Modelled from the spec: the integer interval `-h ..= h` (empty when
`h` is negative), enumerated in increasing order. -/
def specRange (h : ℤ) : List ℤ :=
  (List.range ((2 * h + 1).toNat)).map fun (k : ℕ) => (k : ℤ) - h

/-- Modelled from the spec: "returning the first candidate of minimal
Euclidean norm in enumeration order". -/
def specFirstMin (l : List Vec3) : Vec3 :=
  match l with
  | [] => 0
  | c :: rest =>
    rest.foldl (fun best c2 => if Vec3.norm c2 < Vec3.norm best then c2 else best) c

/-- Modelled from the spec: the fast path — convert `d` to fractional
coordinates, per axis take `n = -round(f_axis)` and translate
`f'_axis = f_axis + n`, convert back to Cartesian. -/
def specFastPath (L : Lattice) (d : Vec3) : Vec3 :=
  let f := L.to_frac d
  L.to_cart
    ⟨f.x + ((-roundAZ f.x : ℤ) : ℝ), f.y + ((-roundAZ f.y : ℤ) : ℝ),
     f.z + ((-roundAZ f.z : ℤ) : ℝ)⟩

/-- Modelled from the spec: the exhaustive search with the fast-path norm
as cutoff, enumerating the full integer box with per-axis half-extent
`ceil(cutoff / width_axis)` (a-major lexicographic order) and returning
the first candidate of minimal norm in enumeration order; the candidates
are the examined image translates of the fast-path vector. -/
def specExhaustive (L : Lattice) (d : Vec3) : Vec3 :=
  let fast := specFastPath L d
  let cutoff := Vec3.norm fast
  let box := (specRange ⌈cutoff / L.widths.1⌉).flatMap fun i =>
    (specRange ⌈cutoff / L.widths.2.1⌉).flatMap fun j =>
      (specRange ⌈cutoff / L.widths.2.2⌉).map fun k => (i, j, k)
  specFirstMin (box.map fun n => fast + L.to_cart (castTriple n))

/-- Modelled from the spec: the top-level hybrid policy. -/
def specMicPolicy (L : Lattice) (d : Vec3) : Vec3 :=
  if L.is_orthorhombic then specFastPath L d
  else if Vec3.norm (specFastPath L d) < 0.5 * L.widthsMin then specFastPath L d
  else specExhaustive L d

theorem specFastPath_eq (L : Lattice) (d : Vec3) :
    specFastPath L d = L.apply_mic_tuckerman d := by
  unfold specFastPath Lattice.apply_mic_tuckerman
  dsimp only
  congr 1
  ext <;> push_cast <;> ring

theorem specRange_eq_rangeSym {h : ℤ} (hh : 0 ≤ h) :
    specRange h = rangeSym h.toNat := by
  unfold specRange rangeSym
  rw [show (2 * h + 1).toNat = 2 * h.toNat + 1 by omega]
  congr 1
  funext k
  rw [Int.toNat_of_nonneg hh]

theorem normSq_eq_zero_iff (v : Vec3) : Vec3.normSq v = 0 ↔ v = 0 := by
  constructor
  · intro h
    have hx : v.x * v.x = 0 := by
      have h1 := mul_self_nonneg v.x
      have h2 := mul_self_nonneg v.y
      have h3 := mul_self_nonneg v.z
      unfold Vec3.normSq at h
      nlinarith
    have hy : v.y * v.y = 0 := by
      have h1 := mul_self_nonneg v.x
      have h2 := mul_self_nonneg v.y
      have h3 := mul_self_nonneg v.z
      unfold Vec3.normSq at h
      nlinarith
    have hz : v.z * v.z = 0 := by
      have h1 := mul_self_nonneg v.x
      have h2 := mul_self_nonneg v.y
      have h3 := mul_self_nonneg v.z
      unfold Vec3.normSq at h
      nlinarith
    ext
    · exact mul_self_eq_zero.mp hx
    · exact mul_self_eq_zero.mp hy
    · exact mul_self_eq_zero.mp hz
  · intro h
    subst h
    simp [Vec3.normSq]

theorem norm_pos_of_ne (v : Vec3) (h : v ≠ 0) : 0 < Vec3.norm v := by
  unfold Vec3.norm
  rw [Real.sqrt_pos]
  rcases lt_or_eq_of_le (Vec3.normSq_nonneg v) with hlt | heq
  · exact hlt
  · exact absurd ((normSq_eq_zero_iff v).mp heq.symm) h

theorem det_ne_zero_cols (M : Mat3) (h : Mat3.det M ≠ 0) :
    M.ca ≠ 0 ∧ M.cb ≠ 0 ∧ M.cc ≠ 0 := by
  refine ⟨?_, ?_, ?_⟩ <;> intro hc <;> apply h
  · rw [Mat3.det, hc]
    simp [Vec3.dot]
  · rw [Mat3.det, hc]
    simp [Vec3.dot, Vec3.cross]
  · rw [Mat3.det, hc]
    simp [Vec3.dot, Vec3.cross]

/-- All three perpendicular widths are positive when the volume is. -/
theorem widths_pos (L : Lattice) (hv : 0 < L.volume) :
    0 < L.widths.1 ∧ 0 < L.widths.2.1 ∧ 0 < L.widths.2.2 := by
  obtain ⟨ha, hb, hc⟩ := det_ne_zero_cols L.matrix (by
    unfold Lattice.volume at hv; exact ne_of_gt hv)
  have hna := norm_pos_of_ne _ ha
  have hnb := norm_pos_of_ne _ hb
  have hnc := norm_pos_of_ne _ hc
  unfold Lattice.widths Lattice.lengths
  refine ⟨div_pos hv (mul_pos hnb hnc), div_pos hv (mul_pos hnc hna),
    div_pos hv (mul_pos hna hnb)⟩

/-- Once the brute-force accumulator holds a genuine candidate, the fold
agrees with the spec's first-minimum fold. -/
theorem micFold_synced (L : Lattice) (p : Vec3) :
    ∀ (l : List (ℤ × ℤ × ℤ)) (b aux : Vec3),
      ((l.foldl (L.micStep p) (Vec3.norm b, b, aux)).2.1) =
        l.foldl (fun best n =>
          if Vec3.norm (p + L.to_cart (castTriple n)) < Vec3.norm best
          then p + L.to_cart (castTriple n) else best) b := by
  intro l
  induction l with
  | nil => intro b aux; rfl
  | cons c rest ih =>
    intro b aux
    rw [List.foldl_cons, List.foldl_cons]
    unfold Lattice.micStep
    dsimp only
    split_ifs with h
    · exact ih _ _
    · exact ih b aux

/-- While every seen candidate is at least the `f64::MAX` sentinel, the
code's fold (still carrying the sentinel) matches the spec's fold from
any interim best of norm at least the sentinel — provided some later
candidate does beat the sentinel. -/
theorem micFold_unsynced (L : Lattice) (p : Vec3) :
    ∀ (l : List (ℤ × ℤ × ℤ)) (b aux : Vec3),
      f64MAX ≤ Vec3.norm b →
      (∃ n ∈ l, Vec3.norm (p + L.to_cart (castTriple n)) < f64MAX) →
      ((l.foldl (L.micStep p) (f64MAX, 0, aux)).2.1) =
        l.foldl (fun best n =>
          if Vec3.norm (p + L.to_cart (castTriple n)) < Vec3.norm best
          then p + L.to_cart (castTriple n) else best) b := by
  intro l
  induction l with
  | nil =>
    intro b aux _ hex
    simp at hex
  | cons c rest ih =>
    intro b aux hb hex
    rw [List.foldl_cons, List.foldl_cons]
    by_cases hc : Vec3.norm (p + L.to_cart (castTriple c)) < f64MAX
    · have hstep : L.micStep p (f64MAX, 0, aux) c =
          (Vec3.norm (p + L.to_cart (castTriple c)), p + L.to_cart (castTriple c),
            castTriple c) := by
        unfold Lattice.micStep
        dsimp only
        rw [if_pos hc]
      rw [hstep, if_pos (lt_of_lt_of_le hc hb)]
      exact micFold_synced L p rest _ _
    · have hstep : L.micStep p (f64MAX, 0, aux) c = (f64MAX, 0, aux) := by
        unfold Lattice.micStep
        dsimp only
        rw [if_neg hc]
      rw [hstep]
      have hb2 : f64MAX ≤ Vec3.norm
          (if Vec3.norm (p + L.to_cart (castTriple c)) < Vec3.norm b
           then p + L.to_cart (castTriple c) else b) := by
        split_ifs with h2
        · exact le_of_not_lt hc
        · exact hb
      obtain ⟨n, hn, hnlt⟩ := hex
      rcases List.mem_cons.mp hn with rfl | hmem
      · exact absurd hnlt hc
      · exact ih _ aux hb2 ⟨n, hmem, hnlt⟩

/-- The brute-force loop returns the spec's "first candidate of minimal
norm", provided at least one candidate beats the `f64::MAX` sentinel. -/
theorem brute_eq_specFirstMin (L : Lattice) (d : Vec3)
    (hex : ∃ n ∈ L.relevant_images (Vec3.norm (L.apply_mic_tuckerman d)),
      Vec3.norm (L.apply_mic_tuckerman d + L.to_cart (castTriple n)) < f64MAX) :
    L.apply_mic_brute_force d =
      specFirstMin ((L.relevant_images (Vec3.norm (L.apply_mic_tuckerman d))).map
        fun n => L.apply_mic_tuckerman d + L.to_cart (castTriple n)) := by
  unfold Lattice.apply_mic_brute_force
  dsimp only
  set p := L.apply_mic_tuckerman d with hp
  cases hl : L.relevant_images (Vec3.norm p) with
  | nil =>
    rw [hl] at hex
    simp at hex
  | cons c rest =>
    rw [hl] at hex
    rw [List.map_cons]
    unfold specFirstMin
    dsimp only
    rw [List.foldl_cons]
    have hfold : (rest.map fun n => p + L.to_cart (castTriple n)).foldl
        (fun best c2 => if Vec3.norm c2 < Vec3.norm best then c2 else best)
        (p + L.to_cart (castTriple c)) =
        rest.foldl (fun best n =>
          if Vec3.norm (p + L.to_cart (castTriple n)) < Vec3.norm best
          then p + L.to_cart (castTriple n) else best)
        (p + L.to_cart (castTriple c)) :=
      List.foldl_map _ _ _ _
    rw [hfold]
    by_cases hc : Vec3.norm (p + L.to_cart (castTriple c)) < f64MAX
    · have hstep : L.micStep p (f64MAX, 0, 0) c =
          (Vec3.norm (p + L.to_cart (castTriple c)), p + L.to_cart (castTriple c),
            castTriple c) := by
        unfold Lattice.micStep
        dsimp only
        rw [if_pos hc]
      rw [hstep]
      exact micFold_synced L p rest _ _
    · have hstep : L.micStep p (f64MAX, 0, 0) c = (f64MAX, 0, 0) := by
        unfold Lattice.micStep
        dsimp only
        rw [if_neg hc]
      rw [hstep]
      obtain ⟨n, hn, hnlt⟩ := hex
      rcases List.mem_cons.mp hn with rfl | hmem
      · exact absurd hnlt hc
      · exact micFold_unsynced L p rest _ 0 (le_of_not_lt hc) ⟨n, hmem, hnlt⟩

/-- C2: `apply_mic` implements exactly the spec's hybrid policy
(fast path per axis `n = -round(f)`, returned outright for an
orthorhombic cell, accepted when its norm is under `0.5 * min(widths)`,
otherwise exhaustive search over the full integer box with half-extents
`ceil(cutoff / width)`, first minimal candidate in enumeration order),
and `distance` is the norm of `apply_mic` of the difference.  Hypotheses:
the volume is positive (so the per-axis half-extents are the nonnegative
numbers the spec's box describes) and at least one examined candidate
beats the `f64::MAX` sentinel the loop is seeded with (true of every
realistic input; the sentinel is an implementation artifact the spec does
not mention). -/
theorem c2_hybrid_policy (L : Lattice) (d : Vec3) (hv : 0 < L.volume)
    (hex : ∃ n ∈ L.relevant_images (Vec3.norm (L.apply_mic_tuckerman d)),
      Vec3.norm (L.apply_mic_tuckerman d + L.to_cart (castTriple n)) < f64MAX) :
    L.apply_mic d = specMicPolicy L d ∧
    L.apply_mic_tuckerman d = specFastPath L d ∧
    (∀ q1 q2 : Vec3, L.distance q1 q2 = Vec3.norm (L.apply_mic (q2 - q1))) := by
  have hfp := specFastPath_eq L d
  refine ⟨?_, hfp.symm, fun q1 q2 => rfl⟩
  unfold Lattice.apply_mic specMicPolicy
  dsimp only
  rw [hfp]
  by_cases hortho : L.is_orthorhombic
  · rw [if_pos hortho, if_pos hortho]
  · rw [if_neg hortho, if_neg hortho]
    by_cases hlt : Vec3.norm (L.apply_mic_tuckerman d) < 0.5 * L.widthsMin
    · rw [if_pos hlt, if_pos hlt]
    · rw [if_neg hlt, if_neg hlt]
      rw [brute_eq_specFirstMin L d hex]
      unfold specExhaustive
      dsimp only
      rw [hfp]
      obtain ⟨hw1, hw2, hw3⟩ := widths_pos L hv
      have hc0 : 0 ≤ Vec3.norm (L.apply_mic_tuckerman d) := Vec3.norm_nonneg _
      have h1 : (0 : ℤ) ≤ ⌈Vec3.norm (L.apply_mic_tuckerman d) / L.widths.1⌉ :=
        Int.ceil_nonneg (div_nonneg hc0 (le_of_lt hw1))
      have h2 : (0 : ℤ) ≤ ⌈Vec3.norm (L.apply_mic_tuckerman d) / L.widths.2.1⌉ :=
        Int.ceil_nonneg (div_nonneg hc0 (le_of_lt hw2))
      have h3 : (0 : ℤ) ≤ ⌈Vec3.norm (L.apply_mic_tuckerman d) / L.widths.2.2⌉ :=
        Int.ceil_nonneg (div_nonneg hc0 (le_of_lt hw3))
      have hbox : L.relevant_images (Vec3.norm (L.apply_mic_tuckerman d)) =
          (specRange ⌈Vec3.norm (L.apply_mic_tuckerman d) / L.widths.1⌉).flatMap fun i =>
            (specRange ⌈Vec3.norm (L.apply_mic_tuckerman d) / L.widths.2.1⌉).flatMap fun j =>
              (specRange ⌈Vec3.norm (L.apply_mic_tuckerman d) / L.widths.2.2⌉).map
                fun k => (i, j, k) := by
        unfold Lattice.relevant_images Lattice.n_min_images lexBox
        dsimp only
        rw [specRange_eq_rangeSym h1, specRange_eq_rangeSym h2, specRange_eq_rangeSym h3]
      rw [hbox]

/-- Witness for C2 at the identity lattice and zero displacement. -/
theorem c2_hybrid_policy_witness :
    idLat.apply_mic 0 = specMicPolicy idLat 0 ∧
    0 < idLat.volume := by
  have hv : 0 < idLat.volume := by
    norm_num [Lattice.volume, Mat3.det, Vec3.dot, Vec3.cross, idLat, Mat3.one3]
  have htuck : idLat.apply_mic_tuckerman 0 = 0 := by
    rw [tuckerman_eval idLat _ 0 (by ext <;> norm_num [Mat3.mulVec, idLat, Mat3.one3])]
    have hr0 : roundAZ (0 : ℝ) = 0 := by
      unfold roundAZ
      norm_num
    simp only [Vec3.zero_x, Vec3.zero_y, Vec3.zero_z, hr0]
    ext <;> norm_num [Mat3.mulVec, idLat, Mat3.one3]
  have hex : ∃ n ∈ idLat.relevant_images (Vec3.norm (idLat.apply_mic_tuckerman 0)),
      Vec3.norm (idLat.apply_mic_tuckerman 0 + idLat.to_cart (castTriple n)) < f64MAX := by
    refine ⟨(0, 0, 0), ?_, ?_⟩
    · rw [htuck, Vec3.norm_zero]
      unfold Lattice.relevant_images Lattice.n_min_images
      dsimp only
      rw [idLat_widths]
      norm_num [lexBox, rangeSym, List.mem_flatMap]
    · rw [htuck]
      have hz : (0 : Vec3) + idLat.to_cart (castTriple (0, 0, 0)) = 0 := by
        unfold Lattice.to_cart castTriple idLat
        ext <;> norm_num [Mat3.mulVec, Mat3.one3]
      rw [hz, Vec3.norm_zero]
      unfold f64MAX
      positivity
  exact ⟨(c2_hybrid_policy idLat 0 hv hex).1, hv⟩

/-! ### C1: minimality of `apply_mic` -/

theorem mem_rangeSym {n : ℕ} {m : ℤ} : m ∈ rangeSym n ↔ -(n : ℤ) ≤ m ∧ m ≤ n := by
  unfold rangeSym
  simp only [List.mem_map, List.mem_range]
  constructor
  · rintro ⟨k, hk, rfl⟩
    omega
  · rintro ⟨h1, h2⟩
    exact ⟨(m + n).toNat, by omega, by omega⟩

theorem mem_lexBox {na nb nc : ℕ} {n : ℤ × ℤ × ℤ} :
    n ∈ lexBox na nb nc ↔
      (-(na : ℤ) ≤ n.1 ∧ n.1 ≤ na) ∧ (-(nb : ℤ) ≤ n.2.1 ∧ n.2.1 ≤ nb) ∧
      (-(nc : ℤ) ≤ n.2.2 ∧ n.2.2 ≤ nc) := by
  obtain ⟨i, j, k⟩ := n
  unfold lexBox
  simp only [List.mem_flatMap, List.mem_map, Prod.mk.injEq]
  constructor
  · rintro ⟨i', hi, j', hj, k', hk, rfl, rfl, rfl⟩
    exact ⟨mem_rangeSym.mp hi, mem_rangeSym.mp hj, mem_rangeSym.mp hk⟩
  · rintro ⟨hi, hj, hk⟩
    exact ⟨i, mem_rangeSym.mpr hi, j, mem_rangeSym.mpr hj, k, mem_rangeSym.mpr hk,
      rfl, rfl, rfl⟩

theorem dot_mulVec_cross_a (M : Mat3) (f : Vec3) :
    Vec3.dot (Mat3.mulVec M f) (Vec3.cross M.cb M.cc) = f.x * Mat3.det M := by
  simp only [Vec3.dot, Vec3.cross, Mat3.mulVec, Mat3.det]
  ring

theorem dot_mulVec_cross_b (M : Mat3) (f : Vec3) :
    Vec3.dot (Mat3.mulVec M f) (Vec3.cross M.cc M.ca) = f.y * Mat3.det M := by
  simp only [Vec3.dot, Vec3.cross, Mat3.mulVec, Mat3.det]
  ring

theorem dot_mulVec_cross_c (M : Mat3) (f : Vec3) :
    Vec3.dot (Mat3.mulVec M f) (Vec3.cross M.ca M.cb) = f.z * Mat3.det M := by
  simp only [Vec3.dot, Vec3.cross, Mat3.mulVec, Mat3.det]
  ring

/-- Generic axis bound: `|f_i| * (det / (norm_j * norm_k)) <= |M f|`,
via the scalar triple product and Cauchy-Schwarz. -/
theorem axis_width_bound (M : Mat3) (f : Vec3) (hdet : 0 < Mat3.det M)
    (u v : Vec3) (c : ℝ)
    (hdot : Vec3.dot (Mat3.mulVec M f) (Vec3.cross u v) = c * Mat3.det M) :
    |c| * (Mat3.det M / (Vec3.norm u * Vec3.norm v)) ≤ Vec3.norm (Mat3.mulVec M f) := by
  have hkey : |c| * Mat3.det M ≤ Vec3.norm (Mat3.mulVec M f) * (Vec3.norm u * Vec3.norm v) := by
    have h1 : |c * Mat3.det M| = |c| * Mat3.det M := by
      rw [abs_mul, abs_of_pos hdet]
    have h2 : |Vec3.dot (Mat3.mulVec M f) (Vec3.cross u v)| ≤
        Vec3.norm (Mat3.mulVec M f) * Vec3.norm (Vec3.cross u v) :=
      Vec3.abs_dot_le _ _
    have h3 : Vec3.norm (Vec3.cross u v) ≤ Vec3.norm u * Vec3.norm v :=
      Vec3.norm_cross_le u v
    have h4 : 0 ≤ Vec3.norm (Mat3.mulVec M f) := Vec3.norm_nonneg _
    calc |c| * Mat3.det M = |Vec3.dot (Mat3.mulVec M f) (Vec3.cross u v)| := by
          rw [hdot, h1]
      _ ≤ Vec3.norm (Mat3.mulVec M f) * Vec3.norm (Vec3.cross u v) := h2
      _ ≤ Vec3.norm (Mat3.mulVec M f) * (Vec3.norm u * Vec3.norm v) := by
          exact mul_le_mul_of_nonneg_left h3 h4
  rcases eq_or_lt_of_le (mul_nonneg (Vec3.norm_nonneg u) (Vec3.norm_nonneg v)) with heq | hpos
  · rw [← heq, div_zero, mul_zero]
    exact Vec3.norm_nonneg _
  · rw [mul_div_assoc']
    rw [div_le_iff hpos]
    calc |c| * Mat3.det M ≤
        Vec3.norm (Mat3.mulVec M f) * (Vec3.norm u * Vec3.norm v) := hkey
      _ = _ := by ring

theorem Mat3.mulVec_sub (M : Mat3) (u v : Vec3) :
    Mat3.mulVec M (u - v) = Mat3.mulVec M u - Mat3.mulVec M v := by
  ext <;> simp [Mat3.mulVec] <;> ring

theorem add_comm_vec (u v : Vec3) : u + v = v + u := by
  ext <;> simp <;> ring

theorem castTriple_sub (a b : ℤ × ℤ × ℤ) :
    castTriple (a - b) = castTriple a - castTriple b := by
  unfold castTriple
  ext <;> simp [Prod.fst_sub, Prod.snd_sub] <;> push_cast <;> ring

/-- Shared round-trip helper (also the content of C7). -/
theorem to_cart_to_frac (L : Lattice) (p : Vec3)
    (hinv2 : Mat3.mulMat L.matrix L.inv_matrix = Mat3.one3) :
    L.to_cart (L.to_frac p) = p := by
  unfold Lattice.to_cart Lattice.to_frac
  rw [Mat3.mulVec_mulVec, hinv2, Mat3.mulVec_one]
  ext <;> simp

/-- The Tuckerman vector is congruent to the input displacement modulo
the lattice (for any origin), witnessed by the negated per-axis rounds. -/
theorem tuckerman_congruent (L : Lattice) (d : Vec3)
    (hinv2 : Mat3.mulMat L.matrix L.inv_matrix = Mat3.one3) :
    L.apply_mic_tuckerman d = d +
      Mat3.mulVec L.matrix (castTriple
        (-roundAZ (L.to_frac d).x, -roundAZ (L.to_frac d).y, -roundAZ (L.to_frac d).z)) := by
  unfold Lattice.apply_mic_tuckerman
  dsimp only
  have hsplit : (⟨(L.to_frac d).x - (roundAZ (L.to_frac d).x : ℝ),
      (L.to_frac d).y - (roundAZ (L.to_frac d).y : ℝ),
      (L.to_frac d).z - (roundAZ (L.to_frac d).z : ℝ)⟩ : Vec3) =
      L.to_frac d + castTriple
        (-roundAZ (L.to_frac d).x, -roundAZ (L.to_frac d).y, -roundAZ (L.to_frac d).z) := by
    unfold castTriple
    ext <;> simp <;> push_cast <;> ring
  rw [hsplit]
  unfold Lattice.to_cart
  rw [Mat3.mulVec_add]
  have hrt := to_cart_to_frac L d hinv2
  unfold Lattice.to_cart at hrt
  calc Mat3.mulVec L.matrix (L.to_frac d) +
        Mat3.mulVec L.matrix (castTriple _) + L.origin
      = (Mat3.mulVec L.matrix (L.to_frac d) + L.origin) +
        Mat3.mulVec L.matrix (castTriple _) := by ext <;> simp <;> ring
    _ = d + Mat3.mulVec L.matrix (castTriple _) := by rw [hrt]

/-- A positive minimum width forces a positive volume and positive
individual widths, each at least the minimum. -/
theorem widthsMin_pos_data (L : Lattice) (h : 0 < L.widthsMin) :
    0 < L.volume ∧ 0 < L.widths.1 ∧ 0 < L.widths.2.1 ∧ 0 < L.widths.2.2 ∧
    L.widthsMin ≤ L.widths.1 ∧ L.widthsMin ≤ L.widths.2.1 ∧
    L.widthsMin ≤ L.widths.2.2 := by
  have h1 : L.widthsMin ≤ L.widths.1 :=
    le_trans (min_le_left _ _) (min_le_left _ _)
  have h2 : L.widthsMin ≤ L.widths.2.1 :=
    le_trans (min_le_left _ _) (min_le_right _ _)
  have h3 : L.widthsMin ≤ L.widths.2.2 := min_le_right _ _
  have hw1 : 0 < L.widths.1 := lt_of_lt_of_le h h1
  have hw2 : 0 < L.widths.2.1 := lt_of_lt_of_le h h2
  have hw3 : 0 < L.widths.2.2 := lt_of_lt_of_le h h3
  have hvol : 0 < L.volume := by
    have hd : 0 < L.volume / (Vec3.norm L.matrix.cb * Vec3.norm L.matrix.cc) := hw1
    rcases div_pos_iff.mp hd with ⟨ha, _⟩ | ⟨_, hb⟩
    · exact ha
    · exact absurd hb (not_lt.mpr (mul_nonneg (Vec3.norm_nonneg _) (Vec3.norm_nonneg _)))
  exact ⟨hvol, hw1, hw2, hw3, h1, h2, h3⟩

/-- Two vectors congruent to the same displacement differ by an integer
combination of the lattice vectors. -/
theorem congruent_diff (L : Lattice) (d v t : Vec3)
    (hv : L.congruent v d) (ht : L.congruent t d) :
    ∃ m : ℤ × ℤ × ℤ, v = t + Mat3.mulVec L.matrix (castTriple m) := by
  obtain ⟨a, ha⟩ := hv
  obtain ⟨b, hb⟩ := ht
  refine ⟨a - b, ?_⟩
  rw [ha, hb, castTriple_sub, Mat3.mulVec_sub]
  ext <;> simp <;> ring

/-- Integer lattice translations are at least the minimal width long. -/
theorem lattice_translate_norm_ge (L : Lattice) (m : ℤ × ℤ × ℤ)
    (hmin : 0 < L.widthsMin) (hm : m ≠ (0, 0, 0)) :
    L.widthsMin ≤ Vec3.norm (Mat3.mulVec L.matrix (castTriple m)) := by
  obtain ⟨hvol, hw1, hw2, hw3, hle1, hle2, hle3⟩ := widthsMin_pos_data L hmin
  have hdet : 0 < Mat3.det L.matrix := hvol
  have hcases : m.1 ≠ 0 ∨ m.2.1 ≠ 0 ∨ m.2.2 ≠ 0 := by
    by_contra hcon
    push_neg at hcon
    exact hm (by
      obtain ⟨h1, h2, h3⟩ := hcon
      obtain ⟨a, b, c⟩ := m
      simp only at h1 h2 h3
      simp [h1, h2, h3])
  rcases hcases with h1 | h2 | h3
  · have habs : (1 : ℝ) ≤ |(castTriple m).x| := by
      unfold castTriple
      dsimp only
      rw [← Int.cast_abs]
      exact_mod_cast Int.one_le_abs h1
    have hb := axis_width_bound L.matrix (castTriple m) hdet L.matrix.cb L.matrix.cc
      (castTriple m).x (dot_mulVec_cross_a L.matrix (castTriple m))
    have hw : L.widths.1 = Mat3.det L.matrix /
        (Vec3.norm L.matrix.cb * Vec3.norm L.matrix.cc) := rfl
    calc L.widthsMin ≤ L.widths.1 := hle1
      _ = 1 * (Mat3.det L.matrix / (Vec3.norm L.matrix.cb * Vec3.norm L.matrix.cc)) := by
          rw [hw]; ring
      _ ≤ |(castTriple m).x| *
            (Mat3.det L.matrix / (Vec3.norm L.matrix.cb * Vec3.norm L.matrix.cc)) := by
          apply mul_le_mul_of_nonneg_right habs
          rw [← hw]
          exact le_of_lt hw1
      _ ≤ Vec3.norm (Mat3.mulVec L.matrix (castTriple m)) := hb
  · have habs : (1 : ℝ) ≤ |(castTriple m).y| := by
      unfold castTriple
      dsimp only
      rw [← Int.cast_abs]
      exact_mod_cast Int.one_le_abs h2
    have hb := axis_width_bound L.matrix (castTriple m) hdet L.matrix.cc L.matrix.ca
      (castTriple m).y (dot_mulVec_cross_b L.matrix (castTriple m))
    have hw : L.widths.2.1 = Mat3.det L.matrix /
        (Vec3.norm L.matrix.cc * Vec3.norm L.matrix.ca) := rfl
    calc L.widthsMin ≤ L.widths.2.1 := hle2
      _ = 1 * (Mat3.det L.matrix / (Vec3.norm L.matrix.cc * Vec3.norm L.matrix.ca)) := by
          rw [hw]; ring
      _ ≤ |(castTriple m).y| *
            (Mat3.det L.matrix / (Vec3.norm L.matrix.cc * Vec3.norm L.matrix.ca)) := by
          apply mul_le_mul_of_nonneg_right habs
          rw [← hw]
          exact le_of_lt hw2
      _ ≤ Vec3.norm (Mat3.mulVec L.matrix (castTriple m)) := hb
  · have habs : (1 : ℝ) ≤ |(castTriple m).z| := by
      unfold castTriple
      dsimp only
      rw [← Int.cast_abs]
      exact_mod_cast Int.one_le_abs h3
    have hb := axis_width_bound L.matrix (castTriple m) hdet L.matrix.ca L.matrix.cb
      (castTriple m).z (dot_mulVec_cross_c L.matrix (castTriple m))
    have hw : L.widths.2.2 = Mat3.det L.matrix /
        (Vec3.norm L.matrix.ca * Vec3.norm L.matrix.cb) := rfl
    calc L.widthsMin ≤ L.widths.2.2 := hle3
      _ = 1 * (Mat3.det L.matrix / (Vec3.norm L.matrix.ca * Vec3.norm L.matrix.cb)) := by
          rw [hw]; ring
      _ ≤ |(castTriple m).z| *
            (Mat3.det L.matrix / (Vec3.norm L.matrix.ca * Vec3.norm L.matrix.cb)) := by
          apply mul_le_mul_of_nonneg_right habs
          rw [← hw]
          exact le_of_lt hw3
      _ ≤ Vec3.norm (Mat3.mulVec L.matrix (castTriple m)) := hb

theorem castTriple_zero : castTriple (0, 0, 0) = 0 := by
  unfold castTriple
  ext <;> simp

theorem castTriple_add (a b : ℤ × ℤ × ℤ) :
    castTriple (a + b) = castTriple a + castTriple b := by
  unfold castTriple
  ext <;> simp [Prod.fst_add, Prod.snd_add] <;> push_cast <;> ring

/-- The fast path's provable-optimality certificate: when the Tuckerman
vector is shorter than half the minimal width, it is a shortest vector in
its congruence class (any other class member exceeds it by the reverse
triangle inequality against a full lattice translation). -/
theorem mic_certificate (L : Lattice) (d : Vec3)
    (hinv2 : Mat3.mulMat L.matrix L.inv_matrix = Mat3.one3)
    (hlt : Vec3.norm (L.apply_mic_tuckerman d) < 0.5 * L.widthsMin) :
    ∀ v : Vec3, L.congruent v d →
      Vec3.norm (L.apply_mic_tuckerman d) ≤ Vec3.norm v := by
  intro v hcong
  have htc : L.congruent (L.apply_mic_tuckerman d) d :=
    ⟨_, tuckerman_congruent L d hinv2⟩
  have hmin : 0 < L.widthsMin := by
    have h0 := Vec3.norm_nonneg (L.apply_mic_tuckerman d)
    nlinarith
  obtain ⟨m, hm⟩ := congruent_diff L d v (L.apply_mic_tuckerman d) hcong htc
  by_cases hm0 : m = (0, 0, 0)
  · rw [hm0, castTriple_zero, Mat3.mulVec_zero, add_zero_vec] at hm
    rw [hm]
  · have hge := lattice_translate_norm_ge L m hmin hm0
    have htri : Vec3.norm (Mat3.mulVec L.matrix (castTriple m)) -
        Vec3.norm (L.apply_mic_tuckerman d) ≤ Vec3.norm v := by
      rw [hm, add_comm_vec]
      exact Vec3.norm_sub_le_norm_add _ _
    linarith

theorem foldl_min_le_init (g : ℤ × ℤ × ℤ → ℝ) :
    ∀ (l : List (ℤ × ℤ × ℤ)) (init : ℝ),
      l.foldl (fun m n => min m (g n)) init ≤ init := by
  intro l
  induction l with
  | nil => intro init; exact le_refl _
  | cons c rest ih =>
    intro init
    rw [List.foldl_cons]
    exact le_trans (ih _) (min_le_left _ _)

theorem foldl_min_le_mem (g : ℤ × ℤ × ℤ → ℝ) :
    ∀ (l : List (ℤ × ℤ × ℤ)) (init : ℝ) (x : ℤ × ℤ × ℤ), x ∈ l →
      l.foldl (fun m n => min m (g n)) init ≤ g x := by
  intro l
  induction l with
  | nil => intro init x hx; simp at hx
  | cons c rest ih =>
    intro init x hx
    rw [List.foldl_cons]
    rcases List.mem_cons.mp hx with rfl | hmem
    · exact le_trans (foldl_min_le_init g rest _) (min_le_right _ _)
    · exact ih _ x hmem

/-- The brute-force fold either never updates or ends on an examined
candidate. -/
theorem micFold_mem (L : Lattice) (p : Vec3) :
    ∀ (l : List (ℤ × ℤ × ℤ)) (acc : ℝ × Vec3 × Vec3),
      l.foldl (L.micStep p) acc = acc ∨
      ∃ n ∈ l, (l.foldl (L.micStep p) acc).2.1 = p + L.to_cart (castTriple n) := by
  intro l
  induction l with
  | nil => intro acc; exact Or.inl rfl
  | cons c rest ih =>
    intro acc
    rw [List.foldl_cons]
    by_cases h : Vec3.norm (p + L.to_cart (castTriple c)) < acc.1
    · have hstep : L.micStep p acc c = (Vec3.norm (p + L.to_cart (castTriple c)),
          p + L.to_cart (castTriple c), castTriple c) := by
        unfold Lattice.micStep
        dsimp only
        rw [if_pos h]
      rw [hstep]
      rcases ih (Vec3.norm (p + L.to_cart (castTriple c)),
        p + L.to_cart (castTriple c), castTriple c) with heq | ⟨n, hn, hv⟩
      · right
        exact ⟨c, List.mem_cons_self c rest, by rw [heq]⟩
      · right
        exact ⟨n, List.mem_cons_of_mem c hn, hv⟩
    · have hstep : L.micStep p acc c = acc := by
        unfold Lattice.micStep
        dsimp only
        rw [if_neg h]
      rw [hstep]
      rcases ih acc with heq | ⟨n, hn, hv⟩
      · exact Or.inl heq
      · right
        exact ⟨n, List.mem_cons_of_mem c hn, hv⟩

/-- Arithmetic core of the box-sufficiency argument: a candidate whose
image index escapes the box on some axis is longer than the cutoff. -/
theorem axis_escape (w ni c fx mx N : ℝ) (hw : 0 < w) (hni : c / w ≤ ni)
    (hfx : |fx| ≤ 1 / 2) (hmx : ni + 1 ≤ |mx|) (hN : |fx + mx| * w ≤ N) :
    c < N := by
  have h1 : |mx| - |fx| ≤ |fx + mx| := by
    have h2 : |mx| ≤ |fx + mx| + |fx| := by
      calc |mx| = |fx + mx + -fx| := by ring_nf
        _ ≤ |fx + mx| + |-fx| := abs_add _ _
        _ = |fx + mx| + |fx| := by rw [abs_neg]
    linarith
  have hcw : c / w * w = c := div_mul_cancel₀ c (ne_of_gt hw)
  nlinarith

theorem norm_M_escape_x (M : Mat3) (inner : Vec3) (m : ℤ × ℤ × ℤ) (c : ℝ) (ni : ℕ)
    (hdet : 0 < Mat3.det M) (hfx : |inner.x| ≤ 1 / 2)
    (hwpos : 0 < Mat3.det M / (Vec3.norm M.cb * Vec3.norm M.cc))
    (hw : c / (Mat3.det M / (Vec3.norm M.cb * Vec3.norm M.cc)) ≤ (ni : ℝ))
    (hm : (ni : ℝ) + 1 ≤ |(m.1 : ℝ)|) :
    c < Vec3.norm (Mat3.mulVec M (inner + castTriple m)) := by
  have hb := axis_width_bound M (inner + castTriple m) hdet M.cb M.cc _
    (dot_mulVec_cross_a M (inner + castTriple m))
  have hcomp : (inner + castTriple m).x = inner.x + (m.1 : ℝ) := by
    simp [castTriple]
  rw [hcomp] at hb
  exact axis_escape _ ni c inner.x (m.1 : ℝ) _ hwpos hw hfx hm hb

theorem norm_M_escape_y (M : Mat3) (inner : Vec3) (m : ℤ × ℤ × ℤ) (c : ℝ) (ni : ℕ)
    (hdet : 0 < Mat3.det M) (hfy : |inner.y| ≤ 1 / 2)
    (hwpos : 0 < Mat3.det M / (Vec3.norm M.cc * Vec3.norm M.ca))
    (hw : c / (Mat3.det M / (Vec3.norm M.cc * Vec3.norm M.ca)) ≤ (ni : ℝ))
    (hm : (ni : ℝ) + 1 ≤ |(m.2.1 : ℝ)|) :
    c < Vec3.norm (Mat3.mulVec M (inner + castTriple m)) := by
  have hb := axis_width_bound M (inner + castTriple m) hdet M.cc M.ca _
    (dot_mulVec_cross_b M (inner + castTriple m))
  have hcomp : (inner + castTriple m).y = inner.y + (m.2.1 : ℝ) := by
    simp [castTriple]
  rw [hcomp] at hb
  exact axis_escape _ ni c inner.y (m.2.1 : ℝ) _ hwpos hw hfy hm hb

theorem norm_M_escape_z (M : Mat3) (inner : Vec3) (m : ℤ × ℤ × ℤ) (c : ℝ) (ni : ℕ)
    (hdet : 0 < Mat3.det M) (hfz : |inner.z| ≤ 1 / 2)
    (hwpos : 0 < Mat3.det M / (Vec3.norm M.ca * Vec3.norm M.cb))
    (hw : c / (Mat3.det M / (Vec3.norm M.ca * Vec3.norm M.cb)) ≤ (ni : ℝ))
    (hm : (ni : ℝ) + 1 ≤ |(m.2.2 : ℝ)|) :
    c < Vec3.norm (Mat3.mulVec M (inner + castTriple m)) := by
  have hb := axis_width_bound M (inner + castTriple m) hdet M.ca M.cb _
    (dot_mulVec_cross_c M (inner + castTriple m))
  have hcomp : (inner + castTriple m).z = inner.z + (m.2.2 : ℝ) := by
    simp [castTriple]
  rw [hcomp] at hb
  exact axis_escape _ ni c inner.z (m.2.2 : ℝ) _ hwpos hw hfz hm hb

/-- With zero origin, the Tuckerman vector is the basis image of a
fractional vector with all components in `[-1/2, 1/2]`. -/
theorem tuckerman_inner (L : Lattice) (d : Vec3) (ho : L.origin = 0) :
    ∃ inner : Vec3, L.apply_mic_tuckerman d = Mat3.mulVec L.matrix inner ∧
      |inner.x| ≤ 1 / 2 ∧ |inner.y| ≤ 1 / 2 ∧ |inner.z| ≤ 1 / 2 := by
  refine ⟨⟨(L.to_frac d).x - (roundAZ (L.to_frac d).x : ℝ),
    (L.to_frac d).y - (roundAZ (L.to_frac d).y : ℝ),
    (L.to_frac d).z - (roundAZ (L.to_frac d).z : ℝ)⟩, ?_, ?_, ?_, ?_⟩
  · unfold Lattice.apply_mic_tuckerman Lattice.to_cart
    dsimp only
    rw [ho, add_zero_vec]
  · exact abs_sub_roundAZ_le _
  · exact abs_sub_roundAZ_le _
  · exact abs_sub_roundAZ_le _

/-- Correctness of the exhaustive fallback: with positive volume, zero
origin and the inverse invariant, when the Tuckerman norm is below the
`f64::MAX` sentinel the brute-force result is congruent to `d` and of
minimal norm in the congruence class (the box half-extents
`ceil(cutoff/width)` are large enough that any image escaping the box is
longer than the cutoff). -/
theorem brute_force_minimal (L : Lattice) (d : Vec3)
    (hv : 0 < L.volume) (ho : L.origin = 0)
    (hinv2 : Mat3.mulMat L.matrix L.inv_matrix = Mat3.one3)
    (hMAX : Vec3.norm (L.apply_mic_tuckerman d) < f64MAX) :
    L.congruent (L.apply_mic_brute_force d) d ∧
    ∀ v : Vec3, L.congruent v d →
      Vec3.norm (L.apply_mic_brute_force d) ≤ Vec3.norm v := by
  have hdet : 0 < Mat3.det L.matrix := hv
  obtain ⟨hw1, hw2, hw3⟩ := widths_pos L hv
  set p := L.apply_mic_tuckerman d with hpdef
  set c := Vec3.norm p with hcdef
  have h0c : 0 ≤ c := Vec3.norm_nonneg _
  have hto : ∀ w : Vec3, L.to_cart w = Mat3.mulVec L.matrix w := by
    intro w
    unfold Lattice.to_cart
    rw [ho, add_zero_vec]
  have hz1 : (0 : ℤ) ≤ ⌈c / L.widths.1⌉ :=
    Int.ceil_nonneg (div_nonneg h0c (le_of_lt hw1))
  have hz2 : (0 : ℤ) ≤ ⌈c / L.widths.2.1⌉ :=
    Int.ceil_nonneg (div_nonneg h0c (le_of_lt hw2))
  have hz3 : (0 : ℤ) ≤ ⌈c / L.widths.2.2⌉ :=
    Int.ceil_nonneg (div_nonneg h0c (le_of_lt hw3))
  have hb1 : c / L.widths.1 ≤ (((⌈c / L.widths.1⌉).toNat : ℕ) : ℝ) := by
    rw [← Int.cast_natCast, Int.toNat_of_nonneg hz1]
    exact Int.le_ceil _
  have hb2 : c / L.widths.2.1 ≤ (((⌈c / L.widths.2.1⌉).toNat : ℕ) : ℝ) := by
    rw [← Int.cast_natCast, Int.toNat_of_nonneg hz2]
    exact Int.le_ceil _
  have hb3 : c / L.widths.2.2 ≤ (((⌈c / L.widths.2.2⌉).toNat : ℕ) : ℝ) := by
    rw [← Int.cast_natCast, Int.toNat_of_nonneg hz3]
    exact Int.le_ceil _
  have himg : L.relevant_images c =
      lexBox (⌈c / L.widths.1⌉).toNat (⌈c / L.widths.2.1⌉).toNat
        (⌈c / L.widths.2.2⌉).toNat := rfl
  have hbr : L.apply_mic_brute_force d =
      ((L.relevant_images c).foldl (L.micStep p) (f64MAX, 0, 0)).2.1 := rfl
  set images := L.relevant_images c with himgs
  set r := images.foldl (L.micStep p) (f64MAX, 0, 0) with hrdef
  have hfst := micFold_fst L p images (f64MAX, 0, 0)
  dsimp only at hfst
  have h0mem : ((0, 0, 0) : ℤ × ℤ × ℤ) ∈ images :=
    mem_lexBox.mpr ⟨⟨by simp, by simp⟩, ⟨by simp, by simp⟩, ⟨by simp, by simp⟩⟩
  have hcand0 : p + L.to_cart (castTriple (0, 0, 0)) = p := by
    rw [castTriple_zero, hto, Mat3.mulVec_zero, add_zero_vec]
  have hminle : images.foldl
      (fun m n => min m (Vec3.norm (p + L.to_cart (castTriple n)))) f64MAX ≤ c := by
    have h := foldl_min_le_mem (fun n => Vec3.norm (p + L.to_cart (castTriple n)))
      images f64MAX (0, 0, 0) h0mem
    dsimp only at h
    rw [hcand0] at h
    exact h
  have hinvf := micFold_inv L p images (f64MAX, 0, 0) (Or.inl ⟨rfl, rfl⟩)
  rcases hinvf with ⟨hr1, _⟩ | ⟨hr1, hr2⟩
  · exfalso
    rw [hfst] at hr1
    have := lt_of_le_of_lt hminle hMAX
    rw [hr1] at this
    exact lt_irrefl _ this
  rcases micFold_mem L p images (f64MAX, 0, 0) with heq | ⟨n₀, hn₀, hv₀⟩
  · exfalso
    have hq : r.1 = f64MAX := by rw [hrdef, heq]
    rw [hq] at hr2
    exact lt_irrefl _ hr2
  obtain ⟨a, ha⟩ : ∃ aa, p = d + Mat3.mulVec L.matrix (castTriple aa) :=
    ⟨_, tuckerman_congruent L d hinv2⟩
  constructor
  · rw [hbr]
    show L.congruent r.2.1 d
    rw [hv₀, hto, ha]
    refine ⟨a + n₀, ?_⟩
    rw [castTriple_add, Mat3.mulVec_add]
    ext <;> simp <;> ring
  · intro v hcv
    obtain ⟨m, hmv⟩ := congruent_diff L d v p hcv ⟨a, ha⟩
    have hnbrute : Vec3.norm (L.apply_mic_brute_force d) = r.1 := by
      rw [hbr]
      show Vec3.norm r.2.1 = r.1
      exact hr1
    by_cases hin :
        (-(((⌈c / L.widths.1⌉).toNat : ℕ) : ℤ) ≤ m.1 ∧
          m.1 ≤ (((⌈c / L.widths.1⌉).toNat : ℕ) : ℤ)) ∧
        (-(((⌈c / L.widths.2.1⌉).toNat : ℕ) : ℤ) ≤ m.2.1 ∧
          m.2.1 ≤ (((⌈c / L.widths.2.1⌉).toNat : ℕ) : ℤ)) ∧
        (-(((⌈c / L.widths.2.2⌉).toNat : ℕ) : ℤ) ≤ m.2.2 ∧
          m.2.2 ≤ (((⌈c / L.widths.2.2⌉).toNat : ℕ) : ℤ))
    · have hmem : m ∈ images := mem_lexBox.mpr hin
      have h := foldl_min_le_mem (fun n => Vec3.norm (p + L.to_cart (castTriple n)))
        images f64MAX m hmem
      dsimp only at h
      rw [hnbrute, hfst]
      have hveq : v = p + L.to_cart (castTriple m) := by
        rw [hmv, hto]
      rw [hveq]
      exact h
    · obtain ⟨inner, hip, hf1, hf2, hf3⟩ := tuckerman_inner L d ho
      have hvM : v = Mat3.mulVec L.matrix (inner + castTriple m) := by
        rw [hmv, Mat3.mulVec_add, ← hip]
      have hcv2 : c < Vec3.norm v := by
        rw [hvM]
        rcases Classical.em (-(((⌈c / L.widths.1⌉).toNat : ℕ) : ℤ) ≤ m.1 ∧
            m.1 ≤ (((⌈c / L.widths.1⌉).toNat : ℕ) : ℤ)) with hx | hx
        · rcases Classical.em (-(((⌈c / L.widths.2.1⌉).toNat : ℕ) : ℤ) ≤ m.2.1 ∧
              m.2.1 ≤ (((⌈c / L.widths.2.1⌉).toNat : ℕ) : ℤ)) with hy | hy
          · have hzf : ¬(-(((⌈c / L.widths.2.2⌉).toNat : ℕ) : ℤ) ≤ m.2.2 ∧
                m.2.2 ≤ (((⌈c / L.widths.2.2⌉).toNat : ℕ) : ℤ)) :=
              fun hz => hin ⟨hx, hy, hz⟩
            have hmz : (((⌈c / L.widths.2.2⌉).toNat : ℕ) : ℝ) + 1 ≤ |(m.2.2 : ℝ)| := by
              have hint : (((⌈c / L.widths.2.2⌉).toNat : ℕ) : ℤ) + 1 ≤ |m.2.2| := by
                rcases abs_cases m.2.2 with ⟨ha1, ha2⟩ | ⟨ha1, ha2⟩ <;> omega
              calc (((⌈c / L.widths.2.2⌉).toNat : ℕ) : ℝ) + 1
                  = (((((⌈c / L.widths.2.2⌉).toNat : ℕ) : ℤ) + 1 : ℤ) : ℝ) := by push_cast; ring
                _ ≤ ((|m.2.2| : ℤ) : ℝ) := by exact_mod_cast hint
                _ = |(m.2.2 : ℝ)| := by push_cast; rfl
            exact norm_M_escape_z L.matrix inner m c _ hdet hf3 hw3 hb3 hmz
          · have hmy : (((⌈c / L.widths.2.1⌉).toNat : ℕ) : ℝ) + 1 ≤ |(m.2.1 : ℝ)| := by
              have hint : (((⌈c / L.widths.2.1⌉).toNat : ℕ) : ℤ) + 1 ≤ |m.2.1| := by
                rcases abs_cases m.2.1 with ⟨ha1, ha2⟩ | ⟨ha1, ha2⟩ <;> omega
              calc (((⌈c / L.widths.2.1⌉).toNat : ℕ) : ℝ) + 1
                  = (((((⌈c / L.widths.2.1⌉).toNat : ℕ) : ℤ) + 1 : ℤ) : ℝ) := by push_cast; ring
                _ ≤ ((|m.2.1| : ℤ) : ℝ) := by exact_mod_cast hint
                _ = |(m.2.1 : ℝ)| := by push_cast; rfl
            exact norm_M_escape_y L.matrix inner m c _ hdet hf2 hw2 hb2 hmy
        · have hmx : (((⌈c / L.widths.1⌉).toNat : ℕ) : ℝ) + 1 ≤ |(m.1 : ℝ)| := by
            have hint : (((⌈c / L.widths.1⌉).toNat : ℕ) : ℤ) + 1 ≤ |m.1| := by
                rcases abs_cases m.1 with ⟨ha1, ha2⟩ | ⟨ha1, ha2⟩ <;> omega
            calc (((⌈c / L.widths.1⌉).toNat : ℕ) : ℝ) + 1
                = (((((⌈c / L.widths.1⌉).toNat : ℕ) : ℤ) + 1 : ℤ) : ℝ) := by push_cast; ring
              _ ≤ ((|m.1| : ℤ) : ℝ) := by exact_mod_cast hint
              _ = |(m.1 : ℝ)| := by push_cast; rfl
          exact norm_M_escape_x L.matrix inner m c _ hdet hf1 hw1 hb1 hmx
      rw [hnbrute, hfst]
      linarith

/-- C1 counterexample: on the orthorhombic lattice `diag(10, 1, 1)` with
origin `(3, 0, 0)` the fast path (taken unconditionally for orthorhombic
cells) rounds the origin-shifted fractional coordinates, so
`apply_mic((6,0,0))` returns `(6,0,0)` even though the congruent vector
`(-4,0,0)` is strictly shorter — `apply_mic` does not return the
shortest congruent vector for every lattice. -/
theorem c1_counterexample :
    oLat.apply_mic ⟨6, 0, 0⟩ = ⟨6, 0, 0⟩ ∧
    oLat.congruent ⟨-4, 0, 0⟩ ⟨6, 0, 0⟩ ∧
    Vec3.norm (⟨-4, 0, 0⟩ : Vec3) < Vec3.norm (⟨6, 0, 0⟩ : Vec3) := by
  refine ⟨oLat_mic_pos, ⟨(-1, 0, 0), ?_⟩, ?_⟩
  · ext <;> norm_num [Mat3.mulVec, castTriple, oLat]
  · rw [norm_eval _ 4 (by norm_num) (by norm_num [Vec3.normSq]),
      norm_eval _ 6 (by norm_num) (by norm_num [Vec3.normSq])]
    norm_num

/-- C1 (amended): for every lattice with positively oriented non-singular
basis, zero origin, the stored inverse actually inverting the basis, and
the fast-path norm below the `f64::MAX` loop sentinel, `apply_mic d` is
congruent to `d` and has minimal norm among all vectors congruent to `d`
modulo the lattice; moreover (for any such lattice) whenever the
fast-path norm is under `r_safe = 0.5 * min(widths)`, the fast-path
vector itself is a true global minimum of its congruence class. -/
theorem c1_amended_mic_minimal (L : Lattice) (d : Vec3)
    (hv : 0 < L.volume) (ho : L.origin = 0)
    (hinv2 : Mat3.mulMat L.matrix L.inv_matrix = Mat3.one3)
    (hMAX : Vec3.norm (L.apply_mic_tuckerman d) < f64MAX) :
    L.congruent (L.apply_mic d) d ∧
    (∀ v : Vec3, L.congruent v d → Vec3.norm (L.apply_mic d) ≤ Vec3.norm v) ∧
    (Vec3.norm (L.apply_mic_tuckerman d) < 0.5 * L.widthsMin →
      ∀ v : Vec3, L.congruent v d →
        Vec3.norm (L.apply_mic_tuckerman d) ≤ Vec3.norm v) := by
  have hmain : L.congruent (L.apply_mic d) d ∧
      ∀ v : Vec3, L.congruent v d → Vec3.norm (L.apply_mic d) ≤ Vec3.norm v := by
    unfold Lattice.apply_mic
    dsimp only
    by_cases hortho : L.is_orthorhombic
    · rw [if_pos hortho]
      refine ⟨⟨_, tuckerman_congruent L d hinv2⟩, ?_⟩
      intro v hcv
      obtain ⟨n, hn⟩ := hcv
      obtain ⟨ha, hb, hc, hM, _⟩ := ortho_structure L hortho hinv2
      have htuck := ortho_tuckerman L d hortho ho hinv2
      rw [htuck]
      have hvcomp : v = ⟨d.x + L.matrix.ca.x * (n.1 : ℝ),
          d.y + L.matrix.cb.y * (n.2.1 : ℝ), d.z + L.matrix.cc.z * (n.2.2 : ℝ)⟩ := by
        rw [hn, hM (castTriple n)]
        unfold castTriple
        ext <;> simp
      rw [hvcomp, Vec3.norm_le_norm_iff]
      have b1 := abs_axisRed_le_translate L.matrix.ca.x d.x ha n.1
      have b2 := abs_axisRed_le_translate L.matrix.cb.y d.y hb n.2.1
      have b3 := abs_axisRed_le_translate L.matrix.cc.z d.z hc n.2.2
      have sq : ∀ a b : ℝ, |a| ≤ |b| → a * a ≤ b * b := by
        intro a b h
        calc a * a = |a| * |a| := (abs_mul_abs_self a).symm
          _ ≤ |b| * |b| := mul_le_mul h h (abs_nonneg a) (abs_nonneg b)
          _ = b * b := abs_mul_abs_self b
      have q1 := sq _ _ b1
      have q2 := sq _ _ b2
      have q3 := sq _ _ b3
      unfold Vec3.normSq
      dsimp only
      linarith
    · rw [if_neg hortho]
      by_cases hlt : Vec3.norm (L.apply_mic_tuckerman d) < 0.5 * L.widthsMin
      · rw [if_pos hlt]
        exact ⟨⟨_, tuckerman_congruent L d hinv2⟩, mic_certificate L d hinv2 hlt⟩
      · rw [if_neg hlt]
        exact brute_force_minimal L d hv ho hinv2 hMAX
  exact ⟨hmain.1, hmain.2, fun hlt => mic_certificate L d hinv2 hlt⟩

theorem idLat_tuck_zero : idLat.apply_mic_tuckerman 0 = 0 := by
  rw [tuckerman_eval idLat _ 0 (by ext <;> norm_num [Mat3.mulVec, idLat, Mat3.one3])]
  have hr0 : roundAZ (0 : ℝ) = 0 := by
    unfold roundAZ
    norm_num
  simp only [Vec3.zero_x, Vec3.zero_y, Vec3.zero_z, hr0]
  ext <;> norm_num [Mat3.mulVec, idLat, Mat3.one3]

/-- Witness for the amended C1 at the identity lattice. -/
theorem c1_amended_mic_minimal_witness :
    idLat.congruent (idLat.apply_mic 0) 0 ∧ 0 < idLat.volume := by
  have hv : 0 < idLat.volume := by
    norm_num [Lattice.volume, Mat3.det, Vec3.dot, Vec3.cross, idLat, Mat3.one3]
  have hMAX : Vec3.norm (idLat.apply_mic_tuckerman 0) < f64MAX := by
    rw [idLat_tuck_zero, Vec3.norm_zero]
    unfold f64MAX
    positivity
  exact ⟨(c1_amended_mic_minimal idLat 0 hv rfl idLat_inv2 hMAX).1, hv⟩
